import Mathlib

/-!
Verification development for the rtlamr multi-scan suite
(scripts/rtlamr_multi_scan.py and scripts/rtlamr_scan_analyzer.py).

The Python sources are shallowly embedded: Python floats are modelled as
rationals (ℚ), Python ints as ℤ/ℕ, Python strings as lists of characters,
dicts and Counters as association lists with Python's insertion-order
update semantics, and fallible operations as Option/Except values.
-/

/-! ## Character string primitives (Python str operations) -/

/-- Characters of a Lean string literal, used to write concrete lines. -/
def chars (s : String) : List Char := s.data

/-- A run of space characters (used by Python format padding). -/
def spaces (n : Nat) : List Char := List.replicate n ' '

/-- Python str.strip(): drop leading and trailing whitespace. -/
def stripChars (l : List Char) : List Char :=
  ((l.dropWhile Char.isWhitespace).reverse.dropWhile Char.isWhitespace).reverse

/-- Python str.startswith on character lists: isPrefC p l is true when p is a
leading segment of l. -/
def isPrefC : List Char → List Char → Bool
  | [], _ => true
  | _ :: _, [] => false
  | p :: ps, c :: cs => p == c && isPrefC ps cs

/-- Worker for splitWs, accumulating the current word reversed. -/
def splitWsAux : List Char → List Char → List (List Char)
  | [], acc => if acc.isEmpty then [] else [acc.reverse]
  | c :: cs, acc =>
    if c.isWhitespace then
      if acc.isEmpty then splitWsAux cs [] else acc.reverse :: splitWsAux cs []
    else splitWsAux cs (c :: acc)

/-- Python str.split() with no separator: split on runs of whitespace,
discarding empty words. -/
def splitWs (l : List Char) : List (List Char) := splitWsAux l []

/-- Worker for splitComma, accumulating the current chunk reversed. -/
def splitCommaAux : List Char → List Char → List (List Char)
  | [], acc => [acc.reverse]
  | c :: cs, acc =>
    if c == ',' then acc.reverse :: splitCommaAux cs []
    else splitCommaAux cs (c :: acc)

/-- Python str.split(",") on character lists: keeps empty chunks, like Python. -/
def splitComma (l : List Char) : List (List Char) := splitCommaAux l []

/-- Python sep.join(parts). -/
def joinSep (sep : List Char) : List (List Char) → List Char
  | [] => []
  | [x] => x
  | x :: y :: rest => x ++ sep ++ joinSep sep (y :: rest)

/-- Python format right-alignment to a minimum field width with spaces. -/
def padLeftC (w : Nat) (s : List Char) : List Char := spaces (w - s.length) ++ s

/-- Python format left-alignment to a minimum field width with spaces. -/
def padRightC (w : Nat) (s : List Char) : List Char := s ++ spaces (w - s.length)

/-- Python set(s) == set("-") test from the analyzer: s is nonempty and
consists only of dashes. -/
def allDash (l : List Char) : Bool := !l.isEmpty && l.all (· == '-')

/-! ## Decimal numerals (Python int/float rendering and parsing) -/

/-- The character of a single decimal digit. -/
def digitChar : Nat → Char
  | 0 => '0'
  | 1 => '1'
  | 2 => '2'
  | 3 => '3'
  | 4 => '4'
  | 5 => '5'
  | 6 => '6'
  | 7 => '7'
  | 8 => '8'
  | 9 => '9'
  | _ => '0'

/-- The numeric value of a decimal digit character. -/
def digitVal (c : Char) : Nat := c.toNat - 48

/-- Base-10 rendering of a natural number, most significant digit first,
as Python str(n) produces for a nonnegative int. -/
def natDec (n : Nat) : List Char :=
  if n = 0 then ['0'] else ((Nat.digits 10 n).map digitChar).reverse

/-- Base-10 rendering of an integer, as Python str(n) produces. -/
def intDec (i : Int) : List Char :=
  if i < 0 then '-' :: natDec i.natAbs else natDec i.natAbs

/-- Value of a most-significant-first digit list. -/
def digitsVal (l : List Char) : Nat := l.foldl (fun a c => 10 * a + digitVal c) 0

/-- Parse an unsigned run of decimal digits; none when empty or non-digit. -/
def parseDigits (l : List Char) : Option Nat :=
  if l.isEmpty then none
  else if l.all Char.isDigit then some (digitsVal l) else none

/-- Python int(token): strip whitespace, optional sign, decimal digits.
Underscore separators and other exotic accepted forms are not modelled;
the tokens arising in this system are plain (possibly signed) digit runs. -/
def pyParseInt (l : List Char) : Option Int :=
  match stripChars l with
  | '-' :: rest => (parseDigits rest).map (fun n => -(n : Int))
  | '+' :: rest => (parseDigits rest).map (fun n => (n : Int))
  | other => (parseDigits other).map (fun n => (n : Int))

/-- Unsigned decimal literal: digits, optionally a dot and more digits.
The value is returned as an exact rational. -/
def parseUFloat (l : List Char) : Option ℚ :=
  let ip := l.takeWhile Char.isDigit
  match l.dropWhile Char.isDigit with
  | [] => if ip.isEmpty then none else some (Rat.divInt (digitsVal ip) 1)
  | '.' :: frac =>
    if frac.all Char.isDigit && (!ip.isEmpty || !frac.isEmpty) then
      some (Rat.divInt (digitsVal ip * 10 ^ frac.length + digitsVal frac) (10 ^ frac.length))
    else none
  | _ => none

/-- Python float(token) on the decimal literals this system produces and
consumes: strip whitespace, optional sign, digits with an optional dot.
Exponent, inf and nan forms are not modelled. -/
def pyParseFloat (l : List Char) : Option ℚ :=
  match stripChars l with
  | '-' :: rest => (parseUFloat rest).map (fun q => -q)
  | '+' :: rest => parseUFloat rest
  | other => parseUFloat other

/-! ## Rounding at presentation boundaries -/

/-- Round to the nearest integer with ties to even, the rounding used by
Python round() and by printf-style fixed-point formatting. -/
def rnd (q : ℚ) : Int :=
  if q - ⌊q⌋ < 1 / 2 then ⌊q⌋
  else if (1 : ℚ) / 2 < q - ⌊q⌋ then ⌊q⌋ + 1
  else if ⌊q⌋ % 2 = 0 then ⌊q⌋ else ⌊q⌋ + 1

/-- Python round(q, 3). -/
def round3 (q : ℚ) : ℚ := (rnd (q * 1000) : ℚ) / 1000

/-- Python round(q, 6), the value a %.6f rendering denotes. -/
def round6 (q : ℚ) : ℚ := (rnd (q * 1000000) : ℚ) / 1000000

/-- Zero-pad a digit list on the left to a given width. -/
def padZeros (w : Nat) (d : List Char) : List Char :=
  List.replicate (w - d.length) '0' ++ d

/-- Python f-string %.3f formatting of a nonnegative value. -/
def fmt3 (q : ℚ) : List Char :=
  let n := (rnd (q * 1000)).toNat
  natDec (n / 1000) ++ '.' :: padZeros 3 (natDec (n % 1000))

/-- Python f-string %.6f formatting of a nonnegative value. -/
def fmt6 (q : ℚ) : List Char :=
  let n := (rnd (q * 1000000)).toNat
  natDec (n / 1000000) ++ '.' :: padZeros 6 (natDec (n % 1000000))

/-! ## Association lists with Python dict/Counter semantics -/

/-- Python dict lookup d.get(k): first (and in a dict, only) binding of k. -/
def getVal {κ ν : Type} [DecidableEq κ] : List (κ × ν) → κ → Option ν
  | [], _ => none
  | (k2, v) :: rest, k => if k2 = k then some v else getVal rest k

/-- Python dict assignment d[k] = v: replace in place, else append. -/
def setKey {κ ν : Type} [DecidableEq κ] : List (κ × ν) → κ → ν → List (κ × ν)
  | [], k, v => [(k, v)]
  | (k2, v2) :: rest, k, v =>
    if k2 = k then (k2, v) :: rest else (k2, v2) :: setKey rest k v

/-- Python Counter/defaultdict increment d[k] += 1. -/
def bump {κ : Type} [DecidableEq κ] : List (κ × Nat) → κ → List (κ × Nat)
  | [], k => [(k, 1)]
  | (k2, v) :: rest, k =>
    if k2 = k then (k2, v + 1) :: rest else (k2, v) :: bump rest k

/-! ## Scanner: frequency planner (rtlamr_multi_scan.build_ism_freqs_mhz) -/

/-- Default core R900 frequencies from default_core_freqs_mhz. -/
def default_core_freqs_mhz : List ℚ :=
  [910.2, 911.5, 912.38, 914.0, 915.5, 916.6, 918.0]

/-- The epsilon the sweep loop adds to the upper bound (1e-9 MHz). -/
def sweepEps : ℚ := 1 / 1000000000

/-- The while loop of build_ism_freqs_mhz: starting at f, append round(f, 3)
and advance by one step while f does not exceed max_mhz + 1e-9. -/
def sweepFrom (max_mhz step_mhz : ℚ) (hstep : 0 < step_mhz) (f : ℚ) : List ℚ :=
  if h : f ≤ max_mhz + sweepEps then
    round3 f :: sweepFrom max_mhz step_mhz hstep (f + step_mhz)
  else []
termination_by (⌊(max_mhz + sweepEps - f) / step_mhz⌋ + 1).toNat
decreasing_by
  have hx : (max_mhz + sweepEps - (f + step_mhz)) / step_mhz
      = (max_mhz + sweepEps - f) / step_mhz - 1 := by
    field_simp
    ring
  have h0 : (0 : ℚ) ≤ (max_mhz + sweepEps - f) / step_mhz :=
    div_nonneg (by linarith) (le_of_lt hstep)
  have hfl : (0 : Int) ≤ ⌊(max_mhz + sweepEps - f) / step_mhz⌋ :=
    Int.floor_nonneg.mpr h0
  rw [hx, Int.floor_sub_one]
  omega

/-- Python build_ism_freqs_mhz: none models the ValueError raised when
step_khz ≤ 0; otherwise the swept frequency list is returned. -/
def build_ism_freqs_mhz (min_mhz max_mhz step_khz : ℚ) : Option (List ℚ) :=
  if h : step_khz ≤ 0 then none
  else some (sweepFrom max_mhz (step_khz / 1000) (div_pos (not_le.mp h) (by norm_num)) min_mhz)

/-! ## Scanner: per-line decode (run_rtlamr_for_freq aggregation loop) -/

/-- JSON values as decoded by Python json.loads from one rtlamr line.
Numeric literals are modelled as integers: rtlamr identifiers and counts
are integral, and no claim depends on fractional JSON numbers. -/
inductive Json where
  | null
  | bool (b : Bool)
  | num (n : Int)
  | str (s : List Char)
  | arr (elems : List Json)
  | obj (fields : List (List Char × Json))

/-- Python dict .get on a decoded JSON object field list. -/
def dictGet (fields : List (List Char × Json)) (k : List Char) : Option Json :=
  getVal fields k

/-- Python str.upper(). -/
def pyUpper (l : List Char) : List Char := l.map Char.toUpper

/-- Python str() of a decoded JSON value. Container renderings are
abbreviated; no claim depends on them. -/
def pyStrOfJson : Json → List Char
  | .str s => s
  | .num n => intDec n
  | .bool true => chars ("True")
  | .bool false => chars ("False")
  | .null => chars ("None")
  | .arr _ => chars ("<list>")
  | .obj _ => chars ("<dict>")

/-- Python int(x) applied to a decoded JSON value: ints pass through, bools
coerce, strings are parsed, anything else raises TypeError (none). -/
def pyIntOfJson : Json → Option Int
  | .num n => some n
  | .bool true => some 1
  | .bool false => some 0
  | .str s => pyParseInt s
  | _ => none

/-- Outcome of the scanner loop body for one stdout line. -/
inductive LineResult where
  | skipped
  | counted (meter_id : Int) (msg_type : List Char)
  | exn
deriving DecidableEq

/-- The per-line body of the aggregation loop in run_rtlamr_for_freq,
lines 248-266: the decode step is abstracted as an Option Json (none for a
json.JSONDecodeError, which the loop catches and skips). The exn outcome
models an uncaught Python exception: .get called on a non-dict
(AttributeError) or int() failing on the ID value (ValueError/TypeError),
none of which the loop catches. -/
def process_stdout_line (decoded : Option Json) (accepted : Option (List (List Char))) :
    LineResult :=
  match decoded with
  | none => .skipped
  | some msg =>
    match msg with
    | .obj mfields =>
      let msg_type := pyUpper (pyStrOfJson
        ((dictGet mfields (chars ("Type"))).getD (.str (chars ("UNKNOWN")))))
      match (dictGet mfields (chars ("Message"))).getD (.obj mfields) with
      | .obj meterFields =>
        match dictGet meterFields (chars ("ID")) with
        | none => .skipped
        | some .null => .skipped
        | some idv =>
          match accepted with
          | some acc =>
            if msg_type ∈ acc then
              match pyIntOfJson idv with
              | some n => .counted n msg_type
              | none => .exn
            else .skipped
          | none =>
            match pyIntOfJson idv with
            | some n => .counted n msg_type
            | none => .exn
      | _ => .exn
    | _ => .exn

/-! ## Scanner: aggregation state (radios, center_totals, type_totals) -/

/-- The per-radio dict value built by run_rtlamr_for_freq. -/
structure RadioStats where
  id : Int
  type : List Char
  count : Nat
  freqs : List (ℚ × Nat)
deriving DecidableEq

/-- The three aggregation maps threaded through run_cycle. -/
structure AggState where
  radios : List (Int × RadioStats)
  center_totals : List (ℚ × Nat)
  type_totals : List (List Char × Nat)
deriving DecidableEq

/-- Aggregation state at the start of a cycle. -/
def initAgg : AggState := ⟨[], [], []⟩

/-- The aggregator update for one passing record, lines 272-287 of
run_rtlamr_for_freq: create-or-update the radio entry, bump its count and
per-frequency counter, overwrite its type, and bump the frequency and type
totals. -/
def update_stats (s : AggState) (meter_id : Int) (msg_type : List Char)
    (center_freq_mhz : ℚ) : AggState :=
  let r0 := (getVal s.radios meter_id).getD ⟨meter_id, msg_type, 0, []⟩
  let r1 : RadioStats :=
    { r0 with count := r0.count + 1, type := msg_type, freqs := bump r0.freqs center_freq_mhz }
  { radios := setKey s.radios meter_id r1,
    center_totals := bump s.center_totals center_freq_mhz,
    type_totals := bump s.type_totals msg_type }

/-- Aggregate a whole sequence of passing records from the empty state. -/
def foldUpdates (events : List (Int × List Char × ℚ)) : AggState :=
  events.foldl (fun s e => update_stats s e.1 e.2.1 e.2.2) initAgg

/-- Sum of the counts stored in a counter map. -/
def sumVals {κ : Type} (m : List (κ × Nat)) : Nat := (m.map Prod.snd).sum

/-- Count stored for one key of a counter map (0 when absent). -/
def cnt {κ : Type} [DecidableEq κ] (m : List (κ × Nat)) (k : κ) : Nat :=
  (getVal m k).getD 0

/-- Sum over all radios of the per-frequency count at one frequency. -/
def radiosFreqSum (radios : List (Int × RadioStats)) (f : ℚ) : Nat :=
  (radios.map (fun p => cnt p.2.freqs f)).sum

/-- Sum over all radios of their total counts. -/
def radiosCountSum (radios : List (Int × RadioStats)) : Nat :=
  (radios.map (fun p => p.2.count)).sum

/-- The three aggregation invariants of the spec data model. -/
def aggInv (st : AggState) : Prop :=
  (∀ p ∈ st.radios, sumVals p.2.freqs = p.2.count) ∧
  (∀ f : ℚ, radiosFreqSum st.radios f = cnt st.center_totals f) ∧
  sumVals st.type_totals = radiosCountSum st.radios

/-! ## Scanner: report writer (write_summary_table) -/

/-- Python sorted(radios.values(), key=count, reverse=True). -/
def sortRadios (rs : List RadioStats) : List RadioStats :=
  rs.mergeSort (fun a b => decide (b.count ≤ a.count))

/-- Python sorted(center_totals.items(), key=total, reverse=True). -/
def sortCenters (cts : List (ℚ × Nat)) : List (ℚ × Nat) :=
  cts.mergeSort (fun a b => decide (b.2 ≤ a.2))

/-- Python sorted(type_totals.items(), key=total, reverse=True). -/
def sortTypes (tts : List (List Char × Nat)) : List (List Char × Nat) :=
  tts.mergeSort (fun a b => decide (b.2 ≤ a.2))

/-- Python sorted(freqs_counter.keys()). -/
def sortFreqKeysAsc (l : List ℚ) : List ℚ :=
  l.mergeSort (fun a b => decide (a ≤ b))

/-- One per-radio data row of the report. -/
def radioRowLine (r : RadioStats) : List Char :=
  padLeftC 5 (natDec r.count) ++ spaces 3 ++ padLeftC 5 (natDec r.freqs.length) ++ spaces 3 ++
  padLeftC 10 (intDec r.id) ++ spaces 1 ++ padRightC 8 r.type ++ spaces 2 ++
  joinSep (chars (", ")) ((sortFreqKeysAsc (r.freqs.map Prod.fst)).map fmt3)

/-- One frequency-total data row of the report. -/
def freqRowLine (cf : ℚ) (total : Nat) : List Char :=
  padLeftC 5 (natDec total) ++ spaces 3 ++ fmt6 cf

/-- One message-type data row of the report. -/
def typeRowLine (t : List Char) (total : Nat) : List Char :=
  padRightC 8 t ++ spaces 1 ++ padLeftC 5 (natDec total)

/-- The lines of the summary report, exactly as write_summary_table writes
them (the file content split at newlines). -/
def write_summary_lines (radios : List RadioStats) (center_totals : List (ℚ × Nat))
    (type_totals : List (List Char × Nat)) : List (List Char) :=
  [chars ("=== Per-Radio Summary ==="),
   chars ("Total   Freqs   ID         Type      CenterFreqs (MHz)"),
   chars ("-----   -----   ---------- --------  ------------------")]
  ++ (sortRadios radios).map radioRowLine
  ++ [[], chars ("=== Strongest Center Frequencies (by total messages) ==="),
      chars ("Total   CenterFreq (MHz)"),
      chars ("-----   ----------------")]
  ++ (sortCenters center_totals).map (fun p => freqRowLine p.1 p.2)
  ++ [[], chars ("=== Message Types Totals ==="),
      chars ("Type     Total"),
      chars ("-------- -----")]
  ++ (sortTypes type_totals).map (fun p => typeRowLine p.1 p.2)
  ++ (match (sortRadios radios).head? with
      | some r => [[], chars ("[*] Suggested rtlamr command to track strongest meter:"), [],
                   chars ("    rtlamr -filterid=") ++ intDec r.id ++ chars (" -format=json")]
      | none => [])

/-! ## Analyzer: report parser (parse_summary) -/

/-- The analyzer Radio record parsed out of one per-radio data row. -/
structure Radio where
  id : List Char
  type : List Char
  total_messages : Int
  freqs_count : Int
  center_freqs_mhz : List ℚ
  assigned_core_freq_mhz : Option ℚ
deriving DecidableEq

/-- The section variable of the parser state machine. -/
inductive SectionTag where
  | per_radio
  | freq_totals
deriving DecidableEq

/-- The parser loop state: current section and the two accumulated maps. -/
structure ParseState where
  sect : Option SectionTag
  radios : List (List Char × Radio)
  freq_totals : List (ℚ × Int)
deriving DecidableEq

/-- Parse a candidate per-radio data row: at least five whitespace tokens,
the first two integers, then id, type, and a comma-separated frequency list
whose unparseable chunks are dropped. On success the radio is stored by id
(overwriting a previous row with the same id, as the dict assignment does). -/
def perRadioRow (radios : List (List Char × Radio)) (line : List Char) :
    List (List Char × Radio) :=
  match splitWs line with
  | p0 :: p1 :: p2 :: p3 :: r0 :: rest =>
    match pyParseInt p0, pyParseInt p1 with
    | some total, some fcount =>
      let freqs_str := joinSep [' '] (r0 :: rest)
      let cfs := (splitComma freqs_str).filterMap (fun chunk =>
        let c := stripChars chunk
        if c.isEmpty then none else pyParseFloat c)
      setKey radios p2 ⟨p2, p3, total, fcount, cfs, none⟩
    | _, _ => radios
  | _ => radios

/-- Parse a candidate frequency-totals row: exactly two tokens, an integer
total and a float frequency; non-matching rows are skipped. -/
def freqTotalsRow (fts : List (ℚ × Int)) (line : List Char) : List (ℚ × Int) :=
  match splitWs line with
  | [p0, p1] =>
    match pyParseInt p0, pyParseFloat p1 with
    | some total, some freq => setKey fts freq total
    | _, _ => fts
  | _ => fts

/-- One iteration of the parse_summary line loop: section switching on the
two marker prefixes, section reset on any other === line, skipping of
blank, header and separator lines, then row parsing in the current section. -/
def parse_line (st : ParseState) (line : List Char) : ParseState :=
  let s := stripChars line
  if isPrefC (chars ("=== Per-Radio Summary")) s then { st with sect := some .per_radio }
  else if isPrefC (chars ("=== Strongest Center Frequencies")) s then
    { st with sect := some .freq_totals }
  else
    let sect := if isPrefC (chars ("===")) line && !(isPrefC (chars ("=== Per-Radio")) s)
        && !(isPrefC (chars ("=== Strongest Center")) s) then none else st.sect
    match sect with
    | none => { st with sect := none }
    | some tag =>
      if s.isEmpty then st
      else if isPrefC (chars ("Total")) s || allDash s then st
      else
        match tag with
        | .per_radio => { st with radios := perRadioRow st.radios line }
        | .freq_totals => { st with freq_totals := freqTotalsRow st.freq_totals line }

/-- The two empty-result failure modes of parse_summary (RuntimeError). -/
inductive NoData where
  | noRadios
  | noTotals
deriving DecidableEq

/-- Parser state before the first line. -/
def initParse : ParseState := ⟨none, [], []⟩

/-- Python parse_summary over the lines of a report file: fold the line
loop, then fail if no radios or no frequency totals were parsed. -/
def parse_summary (lines : List (List Char)) :
    Except NoData (List (List Char × Radio) × List (ℚ × Int)) :=
  let st := lines.foldl parse_line initParse
  if st.radios.isEmpty then .error .noRadios
  else if st.freq_totals.isEmpty then .error .noTotals
  else .ok (st.radios, st.freq_totals)

/-- Section evolution of the parser, as a function of the line alone. -/
def sectStep (sect : Option SectionTag) (line : List Char) : Option SectionTag :=
  let s := stripChars line
  if isPrefC (chars ("=== Per-Radio Summary")) s then some .per_radio
  else if isPrefC (chars ("=== Strongest Center Frequencies")) s then some .freq_totals
  else if isPrefC (chars ("===")) line && !(isPrefC (chars ("=== Per-Radio")) s)
      && !(isPrefC (chars ("=== Strongest Center")) s) then none
  else sect

/-- The radio row a line contributes in a given section, if any: this is the
event trace of the per-radio part of the parser. -/
def lineRadioEvent (sect : Option SectionTag) (line : List Char) :
    Option (List Char × Radio) :=
  let s := stripChars line
  if isPrefC (chars ("=== Per-Radio Summary")) s then none
  else if isPrefC (chars ("=== Strongest Center Frequencies")) s then none
  else
    let sect2 := if isPrefC (chars ("===")) line && !(isPrefC (chars ("=== Per-Radio")) s)
        && !(isPrefC (chars ("=== Strongest Center")) s) then none else sect
    match sect2 with
    | some .per_radio =>
      if s.isEmpty then none
      else if isPrefC (chars ("Total")) s || allDash s then none
      else
        match splitWs line with
        | p0 :: p1 :: p2 :: p3 :: r0 :: rest =>
          match pyParseInt p0, pyParseInt p1 with
          | some total, some fcount =>
            let freqs_str := joinSep [' '] (r0 :: rest)
            let cfs := (splitComma freqs_str).filterMap (fun chunk =>
              let c := stripChars chunk
              if c.isEmpty then none else pyParseFloat c)
            some (p2, ⟨p2, p3, total, fcount, cfs, none⟩)
          | _, _ => none
        | _ => none
    | _ => none

/-- Worker collecting the per-radio row events of a line list in order. -/
def radioRowEventsAux (sect : Option SectionTag) : List (List Char) → List (List Char × Radio)
  | [] => []
  | l :: ls => (lineRadioEvent sect l).toList ++ radioRowEventsAux (sectStep sect l) ls

/-- All successfully parsed per-radio data rows of a report, in file order. -/
def radioRowEvents (lines : List (List Char)) : List (List Char × Radio) :=
  radioRowEventsAux none lines

/-! ## Analyzer: core selection and assignment -/

/-- The sort comparator of choose_core_frequencies: Python key
(-total, freq) compared lexicographically. -/
def freqTotalLe (a b : ℚ × Int) : Bool :=
  decide (b.2 < a.2 ∨ (a.2 = b.2 ∧ a.1 ≤ b.1))

/-- Python choose_core_frequencies: sort the (freq, total) items by
descending total then ascending frequency and take the first core_count
frequencies. -/
def choose_core_frequencies (freq_totals : List (ℚ × Int)) (core_count : Nat) : List ℚ :=
  ((freq_totals.mergeSort freqTotalLe).take core_count).map Prod.fst

/-- The 1e-6 MHz tolerance of the assignment intersection test. -/
def tol : ℚ := 1 / 1000000

/-- Python freq_totals.get(cf, 0). -/
def fget (freq_totals : List (ℚ × Int)) (cf : ℚ) : Int :=
  (getVal freq_totals cf).getD 0

/-- Python max(l, key=lambda cf: (freq_totals.get(cf, 0), cf)) over a
nonempty list given as head and tail: keep the incumbent on ties, replace
only on strict key increase, exactly as Python max does. -/
def pyMaxTotalFreq (freq_totals : List (ℚ × Int)) (a : ℚ) (l : List ℚ) : ℚ :=
  l.foldl (fun best x =>
    if fget freq_totals best < fget freq_totals x ∨
        (fget freq_totals best = fget freq_totals x ∧ best < x) then x else best) a

/-- Python min(core_freqs, key=lambda cf: abs(cf - mean)) over a nonempty
list given as head and tail: replace only on strict decrease, so ties keep
the earlier core frequency, exactly as Python min does. -/
def pyMinDistFreq (mean : ℚ) (a : ℚ) (l : List ℚ) : ℚ :=
  l.foldl (fun best x => if |x - mean| < |best - mean| then x else best) a

/-- The intersect list built by assign_core_to_radios: for each observed
frequency, the first core frequency within the tolerance, if any. -/
def intersectCores (core_freqs : List ℚ) (fs : List ℚ) : List ℚ :=
  fs.filterMap (fun f => core_freqs.find? (fun cf => decide (|f - cf| < tol)))

/-- The core frequency assigned to one radio by assign_core_to_radios:
first core when the radio has no observed frequencies; otherwise the
intersecting core with the highest (total, value) key; otherwise the core
nearest to the mean of the observed frequencies. The unreachable defaults
(0) stand for the IndexError/ValueError Python would raise on an empty
core list, which the caller rules out before iterating radios. -/
def assignedFreq (radio_freqs : List ℚ) (core_freqs : List ℚ)
    (freq_totals : List (ℚ × Int)) : ℚ :=
  match radio_freqs with
  | [] => core_freqs.headD 0
  | _ :: _ =>
    match intersectCores core_freqs radio_freqs with
    | c :: rest => pyMaxTotalFreq freq_totals c rest
    | [] =>
      let mean := radio_freqs.sum / (radio_freqs.length : ℚ)
      match core_freqs with
      | [] => 0
      | c :: rest => pyMinDistFreq mean c rest

/-- Python assign_core_to_radios, restricted to what the claims are about:
the early return on an empty core list leaves every radio unassigned, and
otherwise every radio receives its assigned core frequency. The grouping
of radios under each core (and its sort) is not modelled. -/
def assign_core_to_radios (radios : List Radio) (core_freqs : List ℚ)
    (freq_totals : List (ℚ × Int)) : List Radio :=
  if core_freqs.isEmpty then radios
  else radios.map (fun r =>
    { r with assigned_core_freq_mhz := some (assignedFreq r.center_freqs_mhz core_freqs freq_totals) })

/-- The whitespace-split tokens of a comma-and-space joined list: every
token except the last carries its trailing comma. -/
def commaMarked : List (List Char) → List (List Char)
  | [] => []
  | [x] => [x]
  | x :: y :: rest => (x ++ [',']) :: commaMarked (y :: rest)

/-- The Radio record the parser reconstructs from the row written for a
given aggregator radio entry. -/
def parsedOfStats (r : RadioStats) : Radio :=
  ⟨intDec r.id, r.type, (r.count : Int), (r.freqs.length : Int),
   (sortFreqKeysAsc (r.freqs.map Prod.fst)).map round3, none⟩

/-- Well-formedness of one aggregator radio entry: it has observed at least
one frequency, its type token is a nonempty whitespace-free word, and its
frequencies are nonnegative. All states built by update_stats from decoded
rtlamr records satisfy this. -/
def WFStats (r : RadioStats) : Prop :=
  r.freqs ≠ [] ∧ r.type ≠ [] ∧ (∀ c ∈ r.type, c.isWhitespace = false) ∧
  (∀ p ∈ r.freqs, 0 ≤ p.1)

/-- Well-formedness of a whole aggregator state for the report round-trip:
at least one radio and one frequency total, distinct radio ids as printed,
nonnegative frequencies that stay distinct at the 6-decimal display
precision, and type tokens that are nonempty whitespace-free words not
opening with the section-marker character. -/
def WFAgg (radios : List RadioStats) (center_totals : List (ℚ × Nat))
    (type_totals : List (List Char × Nat)) : Prop :=
  radios ≠ [] ∧ (∀ r ∈ radios, WFStats r) ∧
  (radios.map (fun r => intDec r.id)).Nodup ∧
  center_totals ≠ [] ∧ (∀ p ∈ center_totals, 0 ≤ p.1) ∧
  (center_totals.map (fun p => round6 p.1)).Nodup ∧
  (∀ p ∈ type_totals, p.1 ≠ [] ∧ (∀ c ∈ p.1, c.isWhitespace = false) ∧ p.1.headD ' ' ≠ '=')

/-- Number of iterations the sweep loop performs from a given start value. -/
def sweepLen (max_mhz step_mhz f : ℚ) : Nat :=
  (⌊(max_mhz + sweepEps - f) / step_mhz⌋ + 1).toNat

/-! ## Theorems -/

/-- Helper: one loop step shrinks the remaining iteration count by one. -/
theorem sweepLen_step (max_mhz step_mhz f : ℚ) (hstep : 0 < step_mhz)
    (h : f ≤ max_mhz + sweepEps) :
    sweepLen max_mhz step_mhz (f + step_mhz) = sweepLen max_mhz step_mhz f - 1 := by
  unfold sweepLen
  have hx : (max_mhz + sweepEps - (f + step_mhz)) / step_mhz
      = (max_mhz + sweepEps - f) / step_mhz - 1 := by
    field_simp
    ring
  have h0 : (0 : ℚ) ≤ (max_mhz + sweepEps - f) / step_mhz :=
    div_nonneg (by linarith) hstep.le
  have hfl : (0 : Int) ≤ ⌊(max_mhz + sweepEps - f) / step_mhz⌋ :=
    Int.floor_nonneg.mpr h0
  rw [hx, Int.floor_sub_one]
  omega

/-- Helper: the loop runs at least once exactly when the start is in range. -/
theorem sweepLen_pos (max_mhz step_mhz f : ℚ) (hstep : 0 < step_mhz)
    (h : f ≤ max_mhz + sweepEps) : 1 ≤ sweepLen max_mhz step_mhz f := by
  unfold sweepLen
  have h0 : (0 : ℚ) ≤ (max_mhz + sweepEps - f) / step_mhz :=
    div_nonneg (by linarith) hstep.le
  have hfl : (0 : Int) ≤ ⌊(max_mhz + sweepEps - f) / step_mhz⌋ :=
    Int.floor_nonneg.mpr h0
  omega

/-- Helper: closed form of the sweep loop as a map over an index range. -/
theorem sweepFrom_eq_map (max_mhz step_mhz : ℚ) (hstep : 0 < step_mhz) :
    ∀ (N : Nat) (f : ℚ), sweepLen max_mhz step_mhz f = N →
      sweepFrom max_mhz step_mhz hstep f
        = (List.range N).map (fun (i : Nat) => round3 (f + (i : ℚ) * step_mhz)) := by
  intro N
  induction N using Nat.strong_induction_on with
  | _ N ih =>
    intro f hN
    rw [sweepFrom]
    by_cases h : f ≤ max_mhz + sweepEps
    · rw [dif_pos h]
      have h1 : 1 ≤ sweepLen max_mhz step_mhz f := sweepLen_pos _ _ _ hstep h
      have hstep1 : sweepLen max_mhz step_mhz (f + step_mhz) = N - 1 := by
        rw [sweepLen_step _ _ _ hstep h, hN]
      have hrec := ih (N - 1) (by omega) (f + step_mhz) hstep1
      rw [hrec]
      have hN2 : N = (N - 1) + 1 := by omega
      rw [hN2, List.range_succ_eq_map, List.map_cons, List.map_map]
      simp only [Nat.add_sub_cancel]
      congr 1
      · norm_num
      · apply List.map_congr_left
        intro i _
        simp only [Function.comp_apply]
        congr 1
        push_cast
        ring
    · rw [dif_neg h]
      have hneg : (max_mhz + sweepEps - f) / step_mhz < 0 :=
        div_neg_of_neg_of_pos (by linarith [not_le.mp h]) hstep
      have : ⌊(max_mhz + sweepEps - f) / step_mhz⌋ < 0 := by
        exact Int.floor_lt.mpr (by simpa using hneg)
      have hz : sweepLen max_mhz step_mhz f = 0 := by
        unfold sweepLen
        omega
      rw [hN] at hz
      rw [hz]
      simp

/-- Helper: rounding an integer value is the identity. -/
theorem rnd_intCast (m : Int) : rnd (m : ℚ) = m := by
  unfold rnd
  simp [Int.floor_intCast]

/-- Helper: rounding is the floor when the fractional part is below one half. -/
theorem rnd_add_of_lt_half (m : Int) (r : ℚ) (h0 : 0 ≤ r) (h1 : r < 1 / 2) :
    rnd ((m : ℚ) + r) = m := by
  unfold rnd
  have hfl : ⌊(m : ℚ) + r⌋ = m := by
    rw [add_comm, Int.floor_add_int]
    have : ⌊r⌋ = 0 := by
      rw [Int.floor_eq_zero_iff]
      constructor
      · exact h0
      · linarith
    omega
  rw [hfl]
  have he : (m : ℚ) + r - m = r := by ring
  rw [he, if_pos h1]

/-- Helper: round3 fixes any value with at most three decimal places. -/
theorem round3_eq_self (q : ℚ) (m : Int) (hq : q * 1000 = (m : ℚ)) : round3 q = q := by
  unfold round3
  rw [hq, rnd_intCast, ← hq]
  field_simp

/-- Helper: rounding a value at distance below one half above a grid point. -/
theorem round3_near (m : Int) (q r : ℚ) (h : q * 1000 = (m : ℚ) + r)
    (h0 : 0 ≤ r) (h1 : r < 1 / 2) : round3 q = (m : ℚ) / 1000 := by
  unfold round3
  rw [h, rnd_add_of_lt_half m r h0 h1]

/-- C3 (amended): build_ism_freqs_mhz fails if and only if the step is
nonpositive; the min ≥ max condition is checked by the caller, not here. -/
theorem C3_buildSweep_error_iff (min_mhz max_mhz step_khz : ℚ) :
    build_ism_freqs_mhz min_mhz max_mhz step_khz = none ↔ step_khz ≤ 0 := by
  unfold build_ism_freqs_mhz
  split <;> simp_all

/-- C3 counterexample: with min 5 ≥ max 3 and a positive step, the claim
demands a ConfigError, but the code returns a frequency list (empty). -/
theorem C3_counterexample :
    build_ism_freqs_mhz 5 3 300 = some [] ∧ (3 : ℚ) ≤ 5 := by
  refine ⟨?_, by norm_num⟩
  unfold build_ism_freqs_mhz
  rw [dif_neg (by norm_num)]
  rw [sweepFrom]
  rw [dif_neg (by norm_num [sweepEps])]

/-- C2 (amended): on valid windows whose lower edge has at most three decimal
places and whose step is a whole number of kHz, the sweep is strictly
ascending with no duplicates, starts exactly at min, every entry carries at
most three decimal places, and the last entry lies within one step of
max (inclusive of max up to the 1e-9 MHz epsilon). -/
theorem C2_buildSweep_amended (min_mhz max_mhz step_khz : ℚ) (m s : Int)
    (hpos : 0 < step_khz) (hlt : min_mhz < max_mhz)
    (hmin : min_mhz * 1000 = (m : ℚ)) (hs : step_khz = (s : ℚ)) :
    ∃ l, build_ism_freqs_mhz min_mhz max_mhz step_khz = some l ∧
      l ≠ [] ∧
      List.Pairwise (· < ·) l ∧
      l.head? = some min_mhz ∧
      (∀ x ∈ l, ∃ k : Int, x * 1000 = (k : ℚ)) ∧
      (∀ x, l.getLast? = some x →
        max_mhz + sweepEps - step_khz / 1000 < x ∧ x ≤ max_mhz + sweepEps) := by
  have heps : (0 : ℚ) < sweepEps := by norm_num [sweepEps]
  set step : ℚ := step_khz / 1000 with hstepdef
  have hstep : 0 < step := div_pos hpos (by norm_num)
  have hsint : step * 1000 = (s : ℚ) := by
    rw [hstepdef]
    field_simp
    exact hs
  have hentry : ∀ i : Nat, (min_mhz + (i : ℚ) * step) * 1000 = ((m + i * s : Int) : ℚ) := by
    intro i
    have he : (min_mhz + (i : ℚ) * step) * 1000 = min_mhz * 1000 + (i : ℚ) * (step * 1000) := by
      ring
    rw [he, hmin, hsint]
    push_cast
    ring
  have hid : ∀ i : Nat, round3 (min_mhz + (i : ℚ) * step) = min_mhz + (i : ℚ) * step := by
    intro i
    exact round3_eq_self _ _ (hentry i)
  have hle : min_mhz ≤ max_mhz + sweepEps := by linarith
  set N : Nat := sweepLen max_mhz step min_mhz with hNdef
  have hN1 : 1 ≤ N := sweepLen_pos _ _ _ hstep hle
  have hbuild : build_ism_freqs_mhz min_mhz max_mhz step_khz
      = some (sweepFrom max_mhz step (div_pos (not_le.mp (not_le.mpr hpos)) (by norm_num)) min_mhz) := by
    unfold build_ism_freqs_mhz
    rw [dif_neg (not_le.mpr hpos)]
  have hmap := sweepFrom_eq_map max_mhz step
    (div_pos (not_le.mp (not_le.mpr hpos)) (by norm_num)) N min_mhz rfl
  have hl2 : (List.range N).map (fun (i : Nat) => round3 (min_mhz + (i : ℚ) * step))
      = (List.range N).map (fun (i : Nat) => min_mhz + (i : ℚ) * step) :=
    List.map_congr_left (fun i _ => hid i)
  refine ⟨(List.range N).map (fun (i : Nat) => min_mhz + (i : ℚ) * step), ?_, ?_, ?_, ?_, ?_, ?_⟩
  · rw [hbuild, hmap, hl2]
  · have : ((List.range N).map (fun (i : Nat) => min_mhz + (i : ℚ) * step)).length = N := by
      simp
    intro hnil
    rw [hnil] at this
    simp at this
    omega
  · refine List.Pairwise.map _ ?_ (List.pairwise_lt_range N)
    intro a b hab
    have hcast : (a : ℚ) < (b : ℚ) := by exact_mod_cast hab
    have := mul_lt_mul_of_pos_right hcast hstep
    linarith
  · obtain ⟨M, hM⟩ : ∃ M, N = M + 1 := ⟨N - 1, by omega⟩
    rw [hM, List.range_succ_eq_map, List.map_cons]
    simp
  · intro x hx
    obtain ⟨i, _, hix⟩ := List.mem_map.mp hx
    exact ⟨m + i * s, by rw [← hix]; exact hentry i⟩
  · intro x hx
    obtain ⟨M, hM⟩ : ∃ M, N = M + 1 := ⟨N - 1, by omega⟩
    rw [hM, List.range_succ, List.map_append] at hx
    simp only [List.map_cons, List.map_nil] at hx
    rw [List.getLast?_concat] at hx
    have hxval : x = min_mhz + (M : ℚ) * step := by
      simpa using hx.symm
    have hfl0 : (0 : Int) ≤ ⌊(max_mhz + sweepEps - min_mhz) / step⌋ :=
      Int.floor_nonneg.mpr (div_nonneg (by linarith) hstep.le)
    have hNeq : (N : Int) = ⌊(max_mhz + sweepEps - min_mhz) / step⌋ + 1 := by
      rw [hNdef]
      unfold sweepLen
      rw [Int.toNat_of_nonneg (by omega)]
    have hMeq : (M : Int) = ⌊(max_mhz + sweepEps - min_mhz) / step⌋ := by
      rw [hM] at hNeq
      push_cast at hNeq
      omega
    have hMq : (M : ℚ) = (⌊(max_mhz + sweepEps - min_mhz) / step⌋ : ℚ) := by
      exact_mod_cast congrArg (fun z : Int => (z : ℚ)) hMeq
    have hlow : (M : ℚ) ≤ (max_mhz + sweepEps - min_mhz) / step := by
      rw [hMq]
      exact Int.floor_le _
    have hhigh : (max_mhz + sweepEps - min_mhz) / step < (M : ℚ) + 1 := by
      rw [hMq]
      exact Int.lt_floor_add_one _
    have hlow2 : (M : ℚ) * step ≤ max_mhz + sweepEps - min_mhz :=
      (le_div_iff hstep).mp hlow
    have hhigh2 : max_mhz + sweepEps - min_mhz < ((M : ℚ) + 1) * step := by
      have := (div_lt_iff hstep).mp hhigh
      linarith
    constructor
    · rw [hxval]
      have : max_mhz + sweepEps - min_mhz - step < (M : ℚ) * step := by nlinarith
      linarith
    · rw [hxval]
      linarith

/-- C2 witness: the amended sweep property holds on the concrete window
902 to 903 MHz at 300 kHz. -/
theorem C2_buildSweep_amended_witness :
    ∃ l, build_ism_freqs_mhz 902 903 300 = some l ∧
      l ≠ [] ∧
      List.Pairwise (· < ·) l ∧
      l.head? = some 902 ∧
      (∀ x ∈ l, ∃ k : Int, x * 1000 = (k : ℚ)) ∧
      (∀ x, l.getLast? = some x →
        903 + sweepEps - 300 / 1000 < x ∧ x ≤ 903 + sweepEps) :=
  C2_buildSweep_amended 902 903 300 902000 300 (by norm_num) (by norm_num)
    (by norm_num) (by norm_num)

/-- C2 counterexample: a valid window (min < max, step > 0) with a 0.1 kHz
step yields [902, 902, 902]: rounding to three decimals collapses the
entries, so the output is neither strictly ascending nor duplicate-free. -/
theorem C2_counterexample :
    (0 : ℚ) < 1 / 10 ∧ (902 : ℚ) < 902 + 2 / 10000 ∧
    build_ism_freqs_mhz 902 (902 + 2 / 10000) (1 / 10) = some [902, 902, 902] ∧
    ¬ List.Pairwise (· < ·) ([902, 902, 902] : List ℚ) := by
  refine ⟨by norm_num, by norm_num, ?_, by simp⟩
  unfold build_ism_freqs_mhz
  rw [dif_neg (by norm_num)]
  rw [sweepFrom]
  rw [dif_pos (show (902 : ℚ) ≤ 902 + 2 / 10000 + sweepEps by norm_num [sweepEps])]
  rw [sweepFrom]
  rw [dif_pos (show (902 : ℚ) + 1 / 10 / 1000 ≤ 902 + 2 / 10000 + sweepEps by
    norm_num [sweepEps])]
  rw [sweepFrom]
  rw [dif_pos (show (902 : ℚ) + 1 / 10 / 1000 + 1 / 10 / 1000 ≤ 902 + 2 / 10000 + sweepEps by
    norm_num [sweepEps])]
  rw [sweepFrom]
  rw [dif_neg (show ¬ ((902 : ℚ) + 1 / 10 / 1000 + 1 / 10 / 1000 + 1 / 10 / 1000
      ≤ 902 + 2 / 10000 + sweepEps) by norm_num [sweepEps])]
  rw [round3_eq_self 902 902000 (by norm_num)]
  rw [round3_near 902000 (902 + 1 / 10 / 1000) (1 / 10) (by norm_num) (by norm_num) (by norm_num)]
  rw [round3_near 902000 (902 + 1 / 10 / 1000 + 1 / 10 / 1000) (2 / 10)
    (by norm_num) (by norm_num) (by norm_num)]
  norm_num

/-- C4: the failing line. A syntactically valid JSON record whose ID field
is a non-numeric string reaches int(meter_id), which raises ValueError and
aborts the aggregation loop: the line is neither skipped nor counted. -/
theorem C4_line_crashes_loop :
    process_stdout_line
      (some (.obj [(chars ("Type"), .str (chars ("SCM"))),
                   (chars ("Message"), .obj [(chars ("ID"), .str (chars ("abc")))])]))
      none = .exn := by
  decide

/-- Helper: a successful lookup was stored in the map. -/
theorem getVal_mem {κ ν : Type} [DecidableEq κ] (m : List (κ × ν)) (k : κ) (v : ν)
    (h : getVal m k = some v) : (k, v) ∈ m := by
  induction m with
  | nil => simp [getVal] at h
  | cons p rest ih =>
    obtain ⟨k2, v2⟩ := p
    by_cases hk : k2 = k
    · subst hk
      simp [getVal] at h
      simp [h]
    · simp [getVal, hk] at h
      exact List.mem_cons_of_mem _ (ih h)

/-- Helper: bumping a counter adds one to its value sum. -/
theorem bump_sumVals {κ : Type} [DecidableEq κ] (m : List (κ × Nat)) (k : κ) :
    sumVals (bump m k) = sumVals m + 1 := by
  induction m with
  | nil => simp [bump, sumVals]
  | cons p rest ih =>
    obtain ⟨k2, v⟩ := p
    by_cases h : k2 = k
    · simp [bump, h, sumVals]
      omega
    · simp only [bump, h, if_false, ite_false, sumVals, List.map_cons, List.sum_cons]
      simp only [sumVals] at ih
      omega

/-- Helper: bumping a key adds one to that key and leaves others alone. -/
theorem cnt_bump {κ : Type} [DecidableEq κ] (m : List (κ × Nat)) (k k2 : κ) :
    cnt (bump m k) k2 = cnt m k2 + (if k = k2 then 1 else 0) := by
  induction m with
  | nil =>
    by_cases h : k = k2 <;> simp [bump, cnt, getVal, h]
  | cons p rest ih =>
    obtain ⟨k3, v⟩ := p
    by_cases h : k3 = k
    · subst h
      by_cases h2 : k3 = k2
      · subst h2
        simp [bump, cnt, getVal]
      · simp [bump, cnt, getVal, h2]
    · by_cases h2 : k3 = k2
      · subst h2
        simp [bump, cnt, getVal, h]
        exact fun hh => h hh.symm
      · simp only [bump, h, ite_false, if_false] at *
        simp only [cnt, getVal, h2, ite_false, if_false] at *
        exact ih

/-- Helper: updating an absent key appends the binding. -/
theorem setKey_of_getVal_none {κ ν : Type} [DecidableEq κ] (m : List (κ × ν)) (k : κ) (v : ν)
    (h : getVal m k = none) : setKey m k v = m ++ [(k, v)] := by
  induction m with
  | nil => simp [setKey]
  | cons p rest ih =>
    obtain ⟨k2, v2⟩ := p
    by_cases hk : k2 = k
    · simp [getVal, hk] at h
    · simp only [getVal, hk, ite_false, if_false] at h
      simp [setKey, hk, ih h]

/-- Helper: summing a projection over an update of a present key. -/
theorem sumMap_setKey_of_getVal_some {κ ν : Type} [DecidableEq κ] (g : ν → Nat)
    (m : List (κ × ν)) (k : κ) (v r0 : ν) (h : getVal m k = some r0) :
    ((setKey m k v).map (fun p => g p.2)).sum + g r0 = (m.map (fun p => g p.2)).sum + g v := by
  induction m with
  | nil => simp [getVal] at h
  | cons p rest ih =>
    obtain ⟨k2, v2⟩ := p
    by_cases hk : k2 = k
    · simp [getVal, hk] at h
      subst h
      simp [setKey, hk]
      omega
    · simp only [getVal, hk, ite_false, if_false] at h
      simp only [setKey, hk, ite_false, if_false, List.map_cons, List.sum_cons]
      have := ih h
      omega

/-- Helper: membership in an updated map. -/
theorem mem_setKey {κ ν : Type} [DecidableEq κ] (m : List (κ × ν)) (k : κ) (v : ν)
    (p : κ × ν) (hp : p ∈ setKey m k v) : p ∈ m ∨ p = (k, v) := by
  induction m with
  | nil =>
    simp [setKey] at hp
    simp [hp]
  | cons q rest ih =>
    obtain ⟨k2, v2⟩ := q
    by_cases hk : k2 = k
    · subst hk
      simp only [setKey, ite_true, if_pos rfl] at hp
      rcases List.mem_cons.mp hp with h | h
      · subst h
        right
        rfl
      · left
        exact List.mem_cons_of_mem _ h
    · simp only [setKey, hk, ite_false, if_false] at hp
      rcases List.mem_cons.mp hp with h | h
      · subst h
        left
        exact List.mem_cons_self _ _
      · rcases ih h with h2 | h2
        · left
          exact List.mem_cons_of_mem _ h2
        · right
          exact h2

/-- Helper: one aggregator update preserves the three invariants. -/
theorem aggInv_update (s : AggState) (hInv : aggInv s) (meter_id : Int)
    (msg_type : List Char) (cf : ℚ) :
    aggInv (update_stats s meter_id msg_type cf) := by
  obtain ⟨h1, h2, h3⟩ := hInv
  set r0 : RadioStats := (getVal s.radios meter_id).getD ⟨meter_id, msg_type, 0, []⟩ with hr0
  set r1 : RadioStats :=
    { r0 with count := r0.count + 1, type := msg_type, freqs := bump r0.freqs cf } with hr1
  have hupd : update_stats s meter_id msg_type cf =
      { radios := setKey s.radios meter_id r1,
        center_totals := bump s.center_totals cf,
        type_totals := bump s.type_totals msg_type } := rfl
  rw [hupd]
  have hr0sum : sumVals r0.freqs = r0.count := by
    rcases hg : getVal s.radios meter_id with _ | r
    · rw [hr0, hg]
      simp [sumVals]
    · rw [hr0, hg]
      exact h1 (meter_id, r) (getVal_mem _ _ _ hg)
  have hr1freqs : r1.freqs = bump r0.freqs cf := by rw [hr1]
  have hr1count : r1.count = r0.count + 1 := by rw [hr1]
  refine ⟨?_, ?_, ?_⟩
  · intro p hp
    rcases mem_setKey _ _ _ _ hp with h | h
    · exact h1 p h
    · rw [h]
      show sumVals r1.freqs = r1.count
      rw [hr1freqs, hr1count, bump_sumVals, hr0sum]
  · intro f
    show radiosFreqSum (setKey s.radios meter_id r1) f = cnt (bump s.center_totals cf) f
    have hg1 : cnt r1.freqs f = cnt r0.freqs f + (if cf = f then 1 else 0) := by
      rw [hr1freqs]
      exact cnt_bump _ _ _
    have h2f := h2 f
    rw [radiosFreqSum] at h2f
    rw [radiosFreqSum, cnt_bump]
    rcases hgv : getVal s.radios meter_id with _ | r
    · rw [setKey_of_getVal_none _ _ _ hgv, List.map_append, List.sum_append]
      simp only [List.map_cons, List.map_nil, List.sum_cons, List.sum_nil]
      have hr0empty : r0 = ⟨meter_id, msg_type, 0, []⟩ := by
        rw [hr0, hgv]
        rfl
      have hz : cnt r0.freqs f = 0 := by
        rw [hr0empty]
        simp [cnt, getVal]
      by_cases hcf : cf = f
      · simp only [if_pos hcf] at hg1 ⊢
        omega
      · simp only [if_neg hcf] at hg1 ⊢
        omega
    · have hsum := sumMap_setKey_of_getVal_some (fun v : RadioStats => cnt v.freqs f)
        s.radios meter_id r1 r hgv
      have hr0r : r0 = r := by
        rw [hr0, hgv]
        rfl
      simp only [] at hsum
      rw [hg1, hr0r] at hsum
      by_cases hcf : cf = f
      · simp only [if_pos hcf] at hsum ⊢
        omega
      · simp only [if_neg hcf] at hsum ⊢
        omega
  · show sumVals (bump s.type_totals msg_type) = radiosCountSum (setKey s.radios meter_id r1)
    rw [bump_sumVals, h3]
    simp only [radiosCountSum]
    rcases hgv : getVal s.radios meter_id with _ | r
    · rw [setKey_of_getVal_none _ _ _ hgv, List.map_append, List.sum_append]
      simp only [List.map_cons, List.map_nil, List.sum_cons, List.sum_nil]
      have hr0empty : r0 = ⟨meter_id, msg_type, 0, []⟩ := by
        rw [hr0, hgv]
        rfl
      have hz : r0.count = 0 := by
        rw [hr0empty]
      omega
    · have hsum := sumMap_setKey_of_getVal_some (fun v : RadioStats => v.count)
        s.radios meter_id r1 r hgv
      have hr0r : r0 = r := by
        rw [hr0, hgv]
        rfl
      simp only [] at hsum
      rw [← hr0r] at hsum
      omega

/-- Helper: the empty aggregator satisfies the invariants. -/
theorem aggInv_init : aggInv initAgg := by
  refine ⟨?_, ?_, ?_⟩ <;> simp [initAgg, aggInv, sumVals, radiosFreqSum, radiosCountSum, cnt, getVal]

/-- C9: after any sequence of record updates, each radio's per-frequency
counts sum to its total count, for every frequency the per-radio counts sum
to the frequency total, and the type totals sum to the sum of all radio
totals. -/
theorem C9_aggregation_invariants (events : List (Int × List Char × ℚ)) :
    aggInv (foldUpdates events) := by
  suffices h : ∀ (es : List (Int × List Char × ℚ)) (s : AggState), aggInv s →
      aggInv (es.foldl (fun s e => update_stats s e.1 e.2.1 e.2.2) s) by
    exact h events initAgg aggInv_init
  intro es
  induction es with
  | nil => intro s hs; exact hs
  | cons e rest ih =>
    intro s hs
    exact ih _ (aggInv_update s hs e.1 e.2.1 e.2.2)

/-- Helper: the choose-core comparator is transitive. -/
theorem freqTotalLe_trans : ∀ a b c : ℚ × Int,
    freqTotalLe a b = true → freqTotalLe b c = true → freqTotalLe a c = true := by
  intro a b c hab hbc
  simp only [freqTotalLe, decide_eq_true_eq] at *
  rcases hab with h1 | ⟨h1, h2⟩ <;> rcases hbc with h3 | ⟨h3, h4⟩
  · exact Or.inl (lt_trans h3 h1)
  · exact Or.inl (by omega)
  · exact Or.inl (by omega)
  · exact Or.inr ⟨by omega, le_trans h2 h4⟩

/-- Helper: the choose-core comparator is total. -/
theorem freqTotalLe_total : ∀ a b : ℚ × Int,
    (freqTotalLe a b || freqTotalLe b a) = true := by
  intro a b
  simp only [freqTotalLe, Bool.or_eq_true, decide_eq_true_eq]
  rcases lt_trichotomy a.2 b.2 with h | h | h
  · right
    left
    exact h
  · rcases le_total a.1 b.1 with h2 | h2
    · left
      right
      exact ⟨h, h2⟩
    · right
      right
      exact ⟨h.symm, h2⟩
  · left
    left
    exact h

/-- Helper: the choose-core comparator is antisymmetric on pairs. -/
theorem freqTotalLe_antisymm : ∀ a b : ℚ × Int,
    freqTotalLe a b = true → freqTotalLe b a = true → a = b := by
  intro a b hab hba
  simp only [freqTotalLe, decide_eq_true_eq] at *
  have h2 : a.2 = b.2 := by
    rcases hab with h1 | ⟨h1, _⟩ <;> rcases hba with h3 | ⟨h3, _⟩ <;> omega
  have h1 : a.1 = b.1 := by
    rcases hab with h1 | ⟨_, hle1⟩
    · omega
    · rcases hba with h3 | ⟨_, hle2⟩
      · omega
      · exact le_antisymm hle1 hle2
  exact Prod.ext h1 h2

/-- C7: choose_core_frequencies takes the first core_count frequencies of
the items sorted by descending total then ascending frequency; the result
frequencies all come from the input, its length is exactly min(core_count,
number of input frequencies), and the output is invariant under any
reordering of the input items (determinism). -/
theorem C7_chooseCore_spec (freq_totals : List (ℚ × Int)) (core_count : Nat) :
    choose_core_frequencies freq_totals core_count
      = ((freq_totals.mergeSort freqTotalLe).take core_count).map Prod.fst ∧
    List.Pairwise (fun a b => b.2 < a.2 ∨ (a.2 = b.2 ∧ a.1 ≤ b.1))
      (freq_totals.mergeSort freqTotalLe) ∧
    (∀ f ∈ choose_core_frequencies freq_totals core_count, f ∈ freq_totals.map Prod.fst) ∧
    (choose_core_frequencies freq_totals core_count).length
      = min core_count freq_totals.length ∧
    (∀ ft2, freq_totals.Perm ft2 →
      choose_core_frequencies freq_totals core_count
        = choose_core_frequencies ft2 core_count) := by
  have hsorted : ∀ l : List (ℚ × Int),
      List.Pairwise (fun a b => freqTotalLe a b = true) (l.mergeSort freqTotalLe) :=
    fun l => List.sorted_mergeSort freqTotalLe_trans freqTotalLe_total l
  refine ⟨rfl, ?_, ?_, ?_, ?_⟩
  · exact (hsorted freq_totals).imp (fun h => by
      simpa only [freqTotalLe, decide_eq_true_eq] using h)
  · intro f hf
    unfold choose_core_frequencies at hf
    obtain ⟨p, hp, hpf⟩ := List.mem_map.mp hf
    have hp2 : p ∈ freq_totals.mergeSort freqTotalLe := List.mem_of_mem_take hp
    have hp3 : p ∈ freq_totals := (List.mergeSort_perm freq_totals freqTotalLe).mem_iff.mp hp2
    exact List.mem_map.mpr ⟨p, hp3, hpf⟩
  · unfold choose_core_frequencies
    rw [List.length_map, List.length_take,
      (List.mergeSort_perm freq_totals freqTotalLe).length_eq]
  · intro ft2 hperm
    have hant : IsAntisymm (ℚ × Int) (fun a b => freqTotalLe a b = true) :=
      ⟨freqTotalLe_antisymm⟩
    have hps : (freq_totals.mergeSort freqTotalLe).Perm (ft2.mergeSort freqTotalLe) :=
      ((List.mergeSort_perm freq_totals freqTotalLe).trans hperm).trans
        (List.mergeSort_perm ft2 freqTotalLe).symm
    have heq : freq_totals.mergeSort freqTotalLe = ft2.mergeSort freqTotalLe := by
      exact @List.eq_of_perm_of_sorted _ _ hant _ _ hps (hsorted freq_totals) (hsorted ft2)
    unfold choose_core_frequencies
    rw [heq]

/-- Helper: Python max over a nonempty list returns an element and its key
dominates every element's key in the lexicographic (total, frequency)
order. -/
theorem pyMaxTotalFreq_spec (ft : List (ℚ × Int)) :
    ∀ (l : List ℚ) (a : ℚ),
      pyMaxTotalFreq ft a l ∈ a :: l ∧
      ∀ x ∈ a :: l, toLex (fget ft x, x)
        ≤ toLex (fget ft (pyMaxTotalFreq ft a l), pyMaxTotalFreq ft a l) := by
  intro l
  induction l with
  | nil =>
    intro a
    refine ⟨List.mem_singleton.mpr rfl, ?_⟩
    intro x hx
    rw [List.mem_singleton.mp hx]
    exact le_refl _
  | cons y ys ih =>
    intro a
    have hstep : pyMaxTotalFreq ft a (y :: ys)
        = pyMaxTotalFreq ft
            (if fget ft a < fget ft y ∨ (fget ft a = fget ft y ∧ a < y) then y else a) ys := rfl
    obtain ⟨ihmem, ihge⟩ :=
      ih (if fget ft a < fget ft y ∨ (fget ft a = fget ft y ∧ a < y) then y else a)
    have hlt_iff : ∀ u v : ℚ,
        (toLex (fget ft u, u) < toLex (fget ft v, v))
          ↔ (fget ft u < fget ft v ∨ (fget ft u = fget ft v ∧ u < v)) := by
      intro u v
      exact Prod.Lex.lt_iff (fget ft u, u) (fget ft v, v)
    constructor
    · rw [hstep]
      rcases List.mem_cons.mp ihmem with h | h
      · rw [h]
        by_cases hp : fget ft a < fget ft y ∨ (fget ft a = fget ft y ∧ a < y)
        · rw [if_pos hp]
          exact List.mem_cons_of_mem _ (List.mem_cons_self _ _)
        · rw [if_neg hp]
          exact List.mem_cons_self _ _
      · exact List.mem_cons_of_mem _ (List.mem_cons_of_mem _ h)
    · intro x hx
      rw [hstep]
      have hkey_a : toLex (fget ft a, a)
          ≤ toLex (fget ft (if fget ft a < fget ft y ∨ (fget ft a = fget ft y ∧ a < y)
              then y else a),
            (if fget ft a < fget ft y ∨ (fget ft a = fget ft y ∧ a < y) then y else a)) := by
        by_cases hp : fget ft a < fget ft y ∨ (fget ft a = fget ft y ∧ a < y)
        · rw [if_pos hp]
          exact le_of_lt ((hlt_iff a y).mpr hp)
        · rw [if_neg hp]
      have hkey_y : toLex (fget ft y, y)
          ≤ toLex (fget ft (if fget ft a < fget ft y ∨ (fget ft a = fget ft y ∧ a < y)
              then y else a),
            (if fget ft a < fget ft y ∨ (fget ft a = fget ft y ∧ a < y) then y else a)) := by
        by_cases hp : fget ft a < fget ft y ∨ (fget ft a = fget ft y ∧ a < y)
        · rw [if_pos hp]
        · rw [if_neg hp]
          exact not_lt.mp (fun hc => hp ((hlt_iff a y).mp hc))
      have hhead := ihge _ (List.mem_cons_self _ _)
      rcases List.mem_cons.mp hx with h | h
      · rw [h]
        exact le_trans hkey_a hhead
      · rcases List.mem_cons.mp h with h2 | h2
        · rw [h2]
          exact le_trans hkey_y hhead
        · exact ihge x (List.mem_cons_of_mem _ h2)

/-- Helper: Python min by distance over a nonempty list returns an element. -/
theorem pyMinDistFreq_mem (mean : ℚ) :
    ∀ (l : List ℚ) (a : ℚ), pyMinDistFreq mean a l ∈ a :: l := by
  intro l
  induction l with
  | nil =>
    intro a
    exact List.mem_singleton.mpr rfl
  | cons y ys ih =>
    intro a
    have hstep : pyMinDistFreq mean a (y :: ys)
        = pyMinDistFreq mean (if |y - mean| < |a - mean| then y else a) ys := rfl
    rw [hstep]
    rcases List.mem_cons.mp (ih (if |y - mean| < |a - mean| then y else a)) with h | h
    · rw [h]
      by_cases hp : |y - mean| < |a - mean|
      · rw [if_pos hp]
        exact List.mem_cons_of_mem _ (List.mem_cons_self _ _)
      · rw [if_neg hp]
        exact List.mem_cons_self _ _
    · exact List.mem_cons_of_mem _ (List.mem_cons_of_mem _ h)

/-- Helper: every element of the intersect list is a core frequency and is
within the tolerance of one of the radio's observed frequencies. -/
theorem intersectCores_mem (core_freqs fs : List ℚ) (x : ℚ)
    (hx : x ∈ intersectCores core_freqs fs) :
    x ∈ core_freqs ∧ ∃ f ∈ fs, |f - x| < tol := by
  obtain ⟨f, hf, hfind⟩ := List.mem_filterMap.mp hx
  refine ⟨List.mem_of_find?_eq_some hfind, f, hf, ?_⟩
  have := List.find?_some hfind
  simpa using this

/-- Helper: the assigned frequency is always a member of a nonempty core
list. -/
theorem assignedFreq_mem (fs core_freqs : List ℚ) (freq_totals : List (ℚ × Int))
    (hne : core_freqs ≠ []) :
    assignedFreq fs core_freqs freq_totals ∈ core_freqs := by
  obtain ⟨c0, ct, rfl⟩ := List.exists_cons_of_ne_nil hne
  match fs with
  | [] =>
    simp [assignedFreq]
  | f :: fs2 =>
    rw [assignedFreq]
    rcases hI : intersectCores (c0 :: ct) (f :: fs2) with _ | ⟨c, rest⟩
    · simp only []
      exact pyMinDistFreq_mem _ ct c0
    · simp only []
      have hmem := (pyMaxTotalFreq_spec freq_totals rest c).1
      have hsub : ∀ y ∈ c :: rest, y ∈ c0 :: ct := by
        intro y hy
        have : y ∈ intersectCores (c0 :: ct) (f :: fs2) := by
          rw [hI]
          exact hy
        exact (intersectCores_mem _ _ _ this).1
      exact hsub _ hmem

/-- C8: with a nonempty core list, assign sets an assigned core frequency on
every radio, that frequency is always a member of the core list, and a
radio with no observed frequencies gets the first (strongest) core
frequency. -/
theorem C8_assign_assigns_core (radios : List Radio) (core_freqs : List ℚ)
    (freq_totals : List (ℚ × Int)) (hne : core_freqs ≠ []) :
    (∀ r2 ∈ assign_core_to_radios radios core_freqs freq_totals,
        ∃ cf ∈ core_freqs, r2.assigned_core_freq_mhz = some cf) ∧
    (∀ fs : List ℚ, assignedFreq fs core_freqs freq_totals ∈ core_freqs) ∧
    (assignedFreq [] core_freqs freq_totals = core_freqs.head hne) := by
  refine ⟨?_, fun fs => assignedFreq_mem fs core_freqs freq_totals hne, ?_⟩
  · intro r2 hr2
    unfold assign_core_to_radios at hr2
    rw [if_neg (by simpa using hne)] at hr2
    obtain ⟨r, _, hmap⟩ := List.mem_map.mp hr2
    refine ⟨assignedFreq r.center_freqs_mhz core_freqs freq_totals,
      assignedFreq_mem _ _ _ hne, ?_⟩
    rw [← hmap]
  · obtain ⟨c0, ct, rfl⟩ := List.exists_cons_of_ne_nil hne
    simp [assignedFreq]

/-- Helper: find? returns the unique element satisfying the predicate. -/
theorem find?_eq_some_of_unique {α : Type} (l : List α) (p : α → Bool) (a : α)
    (ha : a ∈ l) (hpa : p a = true) (huniq : ∀ x ∈ l, p x = true → x = a) :
    l.find? p = some a := by
  induction l with
  | nil => simp at ha
  | cons y ys ih =>
    rcases List.mem_cons.mp ha with h | h
    · subst h
      exact List.find?_cons_of_pos _ hpa
    · by_cases hpy : p y = true
      · have hya : y = a := huniq y (List.mem_cons_self _ _) hpy
        subst hya
        exact List.find?_cons_of_pos _ hpy
      · rw [List.find?_cons_of_neg _ (by simpa using hpy)]
        exact ih h (fun x hx hpx => huniq x (List.mem_cons_of_mem _ hx) hpx)

/-- C1 (amended): for a radio whose observed frequencies intersect the core
set within the 1e-6 MHz tolerance (cores themselves being at least 2e-6
apart so the match is unambiguous), assign gives an intersecting core
frequency whose (global total, value) key is maximal: highest total first,
and on equal totals the numerically larger frequency. -/
theorem C1_assign_intersection_amended (fs core_freqs : List ℚ)
    (freq_totals : List (ℚ × Int))
    (hsep : core_freqs.Pairwise (fun a b => 2 * tol ≤ |a - b|))
    (hint : ∃ f ∈ fs, ∃ cf ∈ core_freqs, |f - cf| < tol) :
    (∃ f ∈ fs, |f - assignedFreq fs core_freqs freq_totals| < tol) ∧
    assignedFreq fs core_freqs freq_totals ∈ core_freqs ∧
    ∀ cf ∈ core_freqs, (∃ f ∈ fs, |f - cf| < tol) →
      (fget freq_totals cf < fget freq_totals (assignedFreq fs core_freqs freq_totals) ∨
       (fget freq_totals cf = fget freq_totals (assignedFreq fs core_freqs freq_totals) ∧
        cf ≤ assignedFreq fs core_freqs freq_totals)) := by
  obtain ⟨f0, hf0, cf0, hcf0, hd0⟩ := hint
  have hsymm : Symmetric (fun a b : ℚ => 2 * tol ≤ |a - b|) := by
    intro a b h
    rwa [abs_sub_comm]
  have huniqSep : ∀ (f1 : ℚ), ∀ x ∈ core_freqs, ∀ y ∈ core_freqs,
      |f1 - x| < tol → |f1 - y| < tol → x = y := by
    intro f1 x hx y hy h1 h2
    by_contra hxy
    have hfar := List.Pairwise.forall hsymm hsep hx hy hxy
    have hclose : |x - y| < 2 * tol := by
      calc |x - y| ≤ |x - f1| + |f1 - y| := abs_sub_le x f1 y
        _ = |f1 - x| + |f1 - y| := by rw [abs_sub_comm x f1]
        _ < 2 * tol := by linarith
    linarith
  have hfind : ∀ (f1 cf1 : ℚ), cf1 ∈ core_freqs → |f1 - cf1| < tol →
      core_freqs.find? (fun cf => decide (|f1 - cf| < tol)) = some cf1 := by
    intro f1 cf1 hc hd
    apply find?_eq_some_of_unique _ _ _ hc (by simpa using hd)
    intro x hx hpx
    exact huniqSep f1 x hx cf1 hc (by simpa using hpx) hd
  have hmemI : ∀ f1 ∈ fs, ∀ cf1 ∈ core_freqs, |f1 - cf1| < tol →
      cf1 ∈ intersectCores core_freqs fs := by
    intro f1 hf1 cf1 hc hd
    exact List.mem_filterMap.mpr ⟨f1, hf1, hfind f1 cf1 hc hd⟩
  rcases hfs : fs with _ | ⟨f, fs2⟩
  · subst hfs
    simp at hf0
  · subst hfs
    rcases hI : intersectCores core_freqs (f :: fs2) with _ | ⟨c, rest⟩
    · exfalso
      have := hmemI f0 hf0 cf0 hcf0 hd0
      rw [hI] at this
      simp at this
    · have hres : assignedFreq (f :: fs2) core_freqs freq_totals
          = pyMaxTotalFreq freq_totals c rest := by
        rw [assignedFreq]
        simp only [hI]
      obtain ⟨hmem, hge⟩ := pyMaxTotalFreq_spec freq_totals rest c
      have hresI : assignedFreq (f :: fs2) core_freqs freq_totals
          ∈ intersectCores core_freqs (f :: fs2) := by
        rw [hres, hI]
        exact hmem
      obtain ⟨hresCore, f2, hf2, hd2⟩ := intersectCores_mem _ _ _ hresI
      refine ⟨⟨f2, hf2, hd2⟩, hresCore, ?_⟩
      intro cf hcf ⟨f1, hf1, hd1⟩
      have hcfI := hmemI f1 hf1 cf hcf hd1
      rw [hI] at hcfI
      have hle := hge cf hcfI
      rw [← hres] at hle
      exact (Prod.Lex.le_iff (fget freq_totals cf, cf)
        (fget freq_totals (assignedFreq (f :: fs2) core_freqs freq_totals),
         assignedFreq (f :: fs2) core_freqs freq_totals)).mp hle

/-- C1 counterexample: radio observing 910 and 915, both core frequencies,
with equal global totals. The claim demands the numerically smaller 910;
the code's max over the (total, frequency) key picks the larger 915. -/
theorem C1_counterexample :
    assignedFreq [910, 915] [910, 915] [(910, 5), (915, 5)] = 915 ∧ (915 : ℚ) ≠ 910 := by
  have hf1 : List.find? (fun cf => decide (|(910 : ℚ) - cf| < tol)) [910, 915] = some 910 := by
    apply List.find?_cons_of_pos
    simp only [decide_eq_true_eq]
    norm_num [tol]
  have hf2 : List.find? (fun cf => decide (|(915 : ℚ) - cf| < tol)) [910, 915] = some 915 := by
    rw [List.find?_cons_of_neg _ (by
      simp only [decide_eq_true_eq]
      norm_num [tol])]
    apply List.find?_cons_of_pos
    simp only [decide_eq_true_eq]
    norm_num [tol]
  have hI : intersectCores [910, 915] [(910 : ℚ), 915] = [910, 915] := by
    simp only [intersectCores, List.filterMap_cons, List.filterMap_nil, hf1, hf2]
  have h910 : fget [((910 : ℚ), (5 : Int)), (915, 5)] 910 = 5 := by
    norm_num [fget, getVal]
  have h915 : fget [((910 : ℚ), (5 : Int)), (915, 5)] 915 = 5 := by
    norm_num [fget, getVal]
  have hmax : pyMaxTotalFreq [((910 : ℚ), (5 : Int)), (915, 5)] 910 [915] = 915 := by
    unfold pyMaxTotalFreq
    simp only [List.foldl_cons, List.foldl_nil, h910, h915]
    rw [if_pos (by norm_num)]
  refine ⟨?_, by norm_num⟩
  rw [assignedFreq]
  simp only [hI]
  exact hmax

/-- C1 witness: the amended dominance property at the concrete radio of the
spec's worked example (observing 910.2, cores 910.2 and 915.5 with totals
100 and 10). -/
theorem C1_assign_intersection_amended_witness :
    (∃ f ∈ [(910.2 : ℚ)], |f - assignedFreq [910.2] [910.2, 915.5] [(910.2, 100), (915.5, 10)]| < tol) ∧
    assignedFreq [910.2] [910.2, 915.5] [(910.2, 100), (915.5, 10)] ∈ [(910.2 : ℚ), 915.5] ∧
    ∀ cf ∈ [(910.2 : ℚ), 915.5], (∃ f ∈ [(910.2 : ℚ)], |f - cf| < tol) →
      (fget [(910.2, 100), (915.5, 10)] cf
          < fget [(910.2, 100), (915.5, 10)] (assignedFreq [910.2] [910.2, 915.5] [(910.2, 100), (915.5, 10)]) ∨
       (fget [(910.2, 100), (915.5, 10)] cf
          = fget [(910.2, 100), (915.5, 10)] (assignedFreq [910.2] [910.2, 915.5] [(910.2, 100), (915.5, 10)]) ∧
        cf ≤ assignedFreq [910.2] [910.2, 915.5] [(910.2, 100), (915.5, 10)])) :=
  C1_assign_intersection_amended [910.2] [910.2, 915.5] [(910.2, 100), (915.5, 10)]
    (by
      refine List.pairwise_cons.mpr ⟨?_, by simp⟩
      intro b hb
      simp only [List.mem_singleton] at hb
      subst hb
      rw [show |(910.2 : ℚ) - 915.5| = 5.3 by
        rw [abs_of_nonpos (by norm_num)]
        norm_num]
      norm_num [tol])
    ⟨910.2, by simp, 910.2, by simp, by norm_num [tol]⟩

/-- C8 witness: the assignment invariants at a concrete radio list and the
single core frequency 911.5. -/
theorem C8_assign_assigns_core_witness :
    (∀ r2 ∈ assign_core_to_radios
        [⟨chars ("1571038152"), chars ("R900"), 49, 1, [911.5], none⟩] [(911.5 : ℚ)] [],
      ∃ cf ∈ [(911.5 : ℚ)], r2.assigned_core_freq_mhz = some cf) ∧
    (∀ fs : List ℚ, assignedFreq fs [(911.5 : ℚ)] [] ∈ [(911.5 : ℚ)]) ∧
    (assignedFreq [] [(911.5 : ℚ)] [] = ([(911.5 : ℚ)]).head (by simp)) :=
  C8_assign_assigns_core
    [⟨chars ("1571038152"), chars ("R900"), 49, 1, [911.5], none⟩] [(911.5 : ℚ)] []
    (by simp)

/-- Helper: the section after one parsed line depends only on the line. -/
theorem parse_line_sect (st : ParseState) (line : List Char) :
    (parse_line st line).sect = sectStep st.sect line := by
  obtain ⟨sec, rad, fts⟩ := st
  simp only [parse_line, sectStep]
  split_ifs <;> try rfl
  all_goals (rcases sec with _ | tag <;> try rfl)
  all_goals (rcases tag <;> (try split_ifs) <;> try rfl)

/-- Helper: the radio map after one parsed line is the stored event, if
the line is a per-radio data row, and is otherwise unchanged. -/
theorem parse_line_radios (st : ParseState) (line : List Char) :
    (parse_line st line).radios
      = match lineRadioEvent st.sect line with
        | some e => setKey st.radios e.1 e.2
        | none => st.radios := by
  obtain ⟨sec, rad, fts⟩ := st
  simp only [parse_line, lineRadioEvent, perRadioRow]
  split_ifs <;> try rfl
  all_goals (rcases sec with _ | tag <;> try rfl)
  all_goals (rcases tag <;> (try split_ifs) <;> try rfl)
  all_goals (rcases splitWs line with _ | ⟨p0, _ | ⟨p1, _ | ⟨p2, _ | ⟨p3, _ | ⟨r0, rest⟩⟩⟩⟩⟩ <;> try rfl)
  all_goals (rcases h0 : pyParseInt p0 with _ | t <;> rcases h1 : pyParseInt p1 with _ | fc <;>
    simp only [h0, h1])

/-- Helper: the radio map of the whole parse is the fold of the stored row
events over the starting map. -/
theorem foldl_parse_radios (lines : List (List Char)) :
    ∀ st : ParseState,
      (lines.foldl parse_line st).radios
        = (radioRowEventsAux st.sect lines).foldl (fun m e => setKey m e.1 e.2) st.radios := by
  induction lines with
  | nil => intro st; rfl
  | cons l ls ih =>
    intro st
    simp only [List.foldl_cons, radioRowEventsAux, List.foldl_append]
    rw [ih (parse_line st l), parse_line_sect, parse_line_radios]
    rcases lineRadioEvent st.sect l with _ | e
    · rfl
    · rfl

/-- Helper: find? distributes over append. -/
theorem find?_append {α : Type} (l1 l2 : List α) (p : α → Bool) :
    (l1 ++ l2).find? p = (l1.find? p).or (l2.find? p) := by
  induction l1 with
  | nil => simp [Option.none_or]
  | cons a l1 ih =>
    by_cases hp : p a = true
    · rw [List.cons_append, List.find?_cons_of_pos _ hp, List.find?_cons_of_pos _ hp]
      rfl
    · rw [List.cons_append, List.find?_cons_of_neg _ (by simpa using hp),
        List.find?_cons_of_neg _ (by simpa using hp), ih]

/-- Helper: lookup after an update at the same key. -/
theorem getVal_setKey_self {κ ν : Type} [DecidableEq κ] (m : List (κ × ν)) (k : κ) (v : ν) :
    getVal (setKey m k v) k = some v := by
  induction m with
  | nil => simp [setKey, getVal]
  | cons p rest ih =>
    obtain ⟨k2, v2⟩ := p
    by_cases hk : k2 = k
    · simp [setKey, getVal, hk]
    · simp [setKey, getVal, hk, ih]

/-- Helper: lookup after an update at a different key. -/
theorem getVal_setKey_other {κ ν : Type} [DecidableEq κ] (m : List (κ × ν)) (k k2 : κ) (v : ν)
    (h : k2 ≠ k) : getVal (setKey m k v) k2 = getVal m k2 := by
  induction m with
  | nil =>
    simp [setKey, getVal]
    intro hc
    exact absurd hc.symm h
  | cons p rest ih =>
    obtain ⟨k3, v3⟩ := p
    by_cases hk : k3 = k
    · subst hk
      have : ¬ k3 = k2 := fun hc => h (hc.symm)
      simp [setKey, getVal, this]
    · by_cases hk2 : k3 = k2
      · simp [setKey, getVal, hk, hk2, h]
      · simp [setKey, getVal, hk, hk2, ih]

/-- Helper: lookup in a fold of key updates is decided by the last update
of that key, else by the starting map. -/
theorem getVal_foldl_setKey {κ ν : Type} [DecidableEq κ] (events : List (κ × ν)) :
    ∀ (m : List (κ × ν)) (k : κ),
      getVal (events.foldl (fun m2 e => setKey m2 e.1 e.2) m) k
        = ((events.reverse.find? (fun e => decide (e.1 = k))).map Prod.snd).or (getVal m k) := by
  induction events with
  | nil =>
    intro m k
    simp [Option.none_or]
  | cons e es ih =>
    intro m k
    simp only [List.foldl_cons, List.reverse_cons]
    rw [ih, find?_append]
    rcases hf : es.reverse.find? (fun x => decide (x.1 = k)) with _ | e2
    · rw [hf]
      by_cases hek : e.1 = k
      · rw [List.find?_cons_of_pos _ (by simpa using hek)]
        rw [Option.map_none', Option.none_or, Option.none_or, Option.map_some']
        rw [← hek, getVal_setKey_self]
        rfl
      · rw [List.find?_cons_of_neg _ (by simpa using hek), List.find?_nil]
        rw [Option.map_none', Option.none_or, Option.none_or, Option.map_none', Option.none_or]
        rw [getVal_setKey_other _ _ _ _ (fun hc => hek hc.symm)]
    · rw [hf]
      rw [Option.map_some']
      rfl

/-- Helper: the keys of an updated map are the old keys, possibly with the
updated key appended. -/
theorem keys_setKey_subset {κ ν : Type} [DecidableEq κ] (m : List (κ × ν)) (k : κ) (v : ν)
    (x : κ) (hx : x ∈ (setKey m k v).map Prod.fst) : x ∈ m.map Prod.fst ∨ x = k := by
  obtain ⟨p, hp, hpx⟩ := List.mem_map.mp hx
  rcases mem_setKey _ _ _ _ hp with h | h
  · exact Or.inl (List.mem_map.mpr ⟨p, h, hpx⟩)
  · subst h
    exact Or.inr hpx.symm

/-- Helper: updating a key preserves distinctness of the keys. -/
theorem nodupKeys_setKey {κ ν : Type} [DecidableEq κ] (m : List (κ × ν)) (k : κ) (v : ν)
    (h : (m.map Prod.fst).Nodup) : ((setKey m k v).map Prod.fst).Nodup := by
  induction m with
  | nil => simp [setKey]
  | cons p rest ih =>
    obtain ⟨k2, v2⟩ := p
    simp only [List.map_cons, List.nodup_cons] at h
    by_cases hk : k2 = k
    · simp only [setKey, hk, if_pos rfl, ite_true, List.map_cons, List.nodup_cons]
      exact ⟨by simpa [hk] using h.1, h.2⟩
    · simp only [setKey, hk, ite_false, if_false, List.map_cons, List.nodup_cons]
      refine ⟨?_, ih h.2⟩
      intro hc
      rcases keys_setKey_subset rest k v k2 hc with h2 | h2
      · exact h.1 h2
      · exact hk h2

/-- Helper: distinct keys are preserved by a fold of key updates. -/
theorem nodupKeys_foldl_setKey {κ ν : Type} [DecidableEq κ] (events : List (κ × ν)) :
    ∀ m : List (κ × ν), (m.map Prod.fst).Nodup →
      (((events.foldl (fun m2 e => setKey m2 e.1 e.2) m)).map Prod.fst).Nodup := by
  induction events with
  | nil => intro m h; exact h
  | cons e es ih =>
    intro m h
    exact ih _ (nodupKeys_setKey m e.1 e.2 h)

/-- C10: the parsed radio ids are distinct, and the entry stored for an id
is exactly the one contributed by the last per-radio data row carrying that
id in file order. -/
theorem C10_last_row_wins (lines : List (List Char)) :
    ((lines.foldl parse_line initParse).radios.map Prod.fst).Nodup ∧
    ∀ idtok : List Char,
      getVal (lines.foldl parse_line initParse).radios idtok
        = ((radioRowEvents lines).reverse.find? (fun e => decide (e.1 = idtok))).map Prod.snd := by
  constructor
  · rw [foldl_parse_radios]
    exact nodupKeys_foldl_setKey _ _ (by simp [initParse])
  · intro idtok
    rw [foldl_parse_radios, getVal_foldl_setKey]
    have hbase : getVal (initParse.radios) idtok = (none : Option Radio) := rfl
    rw [hbase, Option.or_none]
    rfl

/-- C5: parse_summary fails (with one of the two NoDataError conditions)
exactly when the whole-file fold parsed no radio row or no frequency-total
row; a report with neither section marker raises it, and a report with only
the per-radio section and no frequency-total rows also raises it. -/
theorem C5_parse_summary_nodata_iff :
    (∀ lines : List (List Char),
      (∃ e, parse_summary lines = .error e) ↔
        ((lines.foldl parse_line initParse).radios = [] ∨
         (lines.foldl parse_line initParse).freq_totals = [])) ∧
    parse_summary [chars ("just some text"), chars ("more text")] = .error .noRadios ∧
    parse_summary
      [chars ("=== Per-Radio Summary ==="),
       chars ("Total   Freqs   ID         Type      CenterFreqs (MHz)"),
       chars ("-----   -----   ---------- --------  ------------------"),
       chars ("   49       7   1571038152 R900      911.500, 912.380")] = .error .noTotals := by
  refine ⟨?_, by rfl, by rfl⟩
  intro lines
  unfold parse_summary
  constructor
  · rintro ⟨e, he⟩
    by_cases h1 : (lines.foldl parse_line initParse).radios.isEmpty = true
    · exact Or.inl (List.isEmpty_iff.mp h1)
    · by_cases h2 : (lines.foldl parse_line initParse).freq_totals.isEmpty = true
      · exact Or.inr (List.isEmpty_iff.mp h2)
      · rw [if_neg h1, if_neg h2] at he
        exact absurd he (by simp)
  · intro h
    by_cases h1 : (lines.foldl parse_line initParse).radios.isEmpty = true
    · exact ⟨.noRadios, by rw [if_pos h1]⟩
    · rcases h with h | h
      · exact absurd (List.isEmpty_iff.mpr h) h1
      · refine ⟨.noTotals, ?_⟩
        rw [if_neg h1, if_pos (List.isEmpty_iff.mpr h)]

/-- Helper: every character natDec produces is a decimal digit. -/
theorem natDec_digits (n : Nat) : ∀ c ∈ natDec n, c.isDigit = true := by
  intro c hc
  unfold natDec at hc
  split at hc
  · simp at hc
    rw [hc]
    decide
  · rw [List.mem_reverse, List.mem_map] at hc
    obtain ⟨d, _, hdc⟩ := hc
    rw [← hdc]
    rcases d with _ | _ | _ | _ | _ | _ | _ | _ | _ | _ | d <;> first
      | decide
      | (show (digitChar (d + 10)).isDigit = true
         simp only [digitChar]
         decide)

/-- Helper: natDec never returns the empty list. -/
theorem natDec_ne_nil (n : Nat) : natDec n ≠ [] := by
  unfold natDec
  split
  · simp
  · intro hc
    rw [List.reverse_eq_nil_iff, List.map_eq_nil] at hc
    have hne : Nat.digits 10 n ≠ [] := Nat.digits_ne_nil_iff_ne_zero.mpr (by assumption)
    exact hne hc

/-- Helper: digits are not whitespace. -/
theorem isDigit_not_ws (c : Char) (h : c.isDigit = true) : c.isWhitespace = false := by
  simp [Char.isDigit] at h
  obtain ⟨h1, h2⟩ := h
  simp only [Char.isWhitespace, Bool.or_eq_false_iff, decide_eq_false_iff_not]
  refine ⟨⟨⟨?_, ?_⟩, ?_⟩, ?_⟩ <;> (intro hc; subst hc; exact absurd h1 (by decide))

/-- Helper: digits are not dashes, commas, signs or marker characters. -/
theorem isDigit_ne (c : Char) (h : c.isDigit = true) :
    c ≠ '-' ∧ c ≠ '+' ∧ c ≠ ',' ∧ c ≠ '=' ∧ c ≠ 'T' ∧ c ≠ '.' := by
  simp [Char.isDigit] at h
  obtain ⟨h1, h2⟩ := h
  refine ⟨?_, ?_, ?_, ?_, ?_, ?_⟩ <;>
    (intro hc; subst hc; first
      | exact absurd h1 (by decide)
      | exact absurd h2 (by decide))

/-- Helper: reading back a digit character gives the digit. -/
theorem digitVal_digitChar (d : Nat) (h : d < 10) : digitVal (digitChar d) = d := by
  interval_cases d <;> decide

/-- Helper: folding the rendered digits most-significant-first recovers the
value. -/
theorem digitsVal_eq (l : List Nat) (hl : ∀ d ∈ l, d < 10) :
    ∀ a : Nat, ((l.map digitChar).reverse).foldl (fun acc c => 10 * acc + digitVal c) a
      = a * 10 ^ l.length + Nat.ofDigits 10 l := by
  induction l with
  | nil =>
    intro a
    simp
  | cons d t ih =>
    intro a
    simp only [List.map_cons, List.reverse_cons, List.foldl_append, List.foldl_cons,
      List.foldl_nil, List.length_cons, Nat.ofDigits_cons]
    rw [ih (fun x hx => hl x (List.mem_cons_of_mem _ hx)) a,
      digitVal_digitChar d (hl d (List.mem_cons_self _ _))]
    ring

/-- Helper: rendering then revaluing a natural number is the identity. -/
theorem digitsVal_natDec (n : Nat) : digitsVal (natDec n) = n := by
  unfold natDec digitsVal
  split
  · simp [digitVal]
    omega
  · rw [digitsVal_eq _ (fun d hd => Nat.digits_lt_base (by norm_num) hd) 0]
    simp [Nat.ofDigits_digits]

/-- Helper: dropWhile with a predicate false on all elements is the
identity. -/
theorem dropWhile_all_false {α : Type} (p : α → Bool) (l : List α)
    (h : ∀ c ∈ l, p c = false) : l.dropWhile p = l := by
  rcases l with _ | ⟨c, cs⟩
  · rfl
  · rw [List.dropWhile_cons_of_neg]
    simp [h c (List.mem_cons_self _ _)]

/-- Helper: stripping a whitespace-free list changes nothing. -/
theorem stripChars_of_no_ws (l : List Char) (h : ∀ c ∈ l, c.isWhitespace = false) :
    stripChars l = l := by
  unfold stripChars
  rw [dropWhile_all_false _ _ h,
    dropWhile_all_false _ _ (fun c hc => h c (List.mem_reverse.mp hc)),
    List.reverse_reverse]

/-- Helper: parsing an all-digit token. -/
theorem parseDigits_digits (l : List Char) (hne : l ≠ [])
    (hd : ∀ c ∈ l, c.isDigit = true) : parseDigits l = some (digitsVal l) := by
  unfold parseDigits
  rw [if_neg (by simpa using hne), if_pos (List.all_eq_true.mpr hd)]

/-- Helper: Python int() of a rendered natural number. -/
theorem pyParseInt_natDec (n : Nat) : pyParseInt (natDec n) = some (n : Int) := by
  have hdig := natDec_digits n
  have hne := natDec_ne_nil n
  have hnws : ∀ c ∈ natDec n, c.isWhitespace = false :=
    fun c hc => isDigit_not_ws c (hdig c hc)
  obtain ⟨c, cs, hh⟩ : ∃ c cs, natDec n = c :: cs := by
    rcases hnd : natDec n with _ | ⟨c, cs⟩
    · exact absurd hnd hne
    · exact ⟨c, cs, rfl⟩
  have hcd : c.isDigit = true := hdig c (by rw [hh]; exact List.mem_cons_self _ _)
  obtain ⟨hc1, hc2, _⟩ := isDigit_ne c hcd
  unfold pyParseInt
  rw [stripChars_of_no_ws _ hnws, hh]
  split
  · next rest heq =>
    injection heq with h1 _
    exact absurd h1 hc1
  · next rest heq =>
    injection heq with h1 _
    exact absurd h1 hc2
  · rw [← hh, parseDigits_digits _ hne hdig, digitsVal_natDec]
    rfl

/-- Helper: zero padding preserves digit-only content. -/
theorem padZeros_digits (w : Nat) (d : List Char) (hd : ∀ c ∈ d, c.isDigit = true) :
    ∀ c ∈ padZeros w d, c.isDigit = true := by
  intro c hc
  unfold padZeros at hc
  rcases List.mem_append.mp hc with h | h
  · rw [List.eq_of_mem_replicate h]
    decide
  · exact hd c h

/-- Helper: leading zeros do not change the numeric value of digits. -/
theorem digitsVal_padZeros (w : Nat) (d : List Char) :
    digitsVal (padZeros w d) = digitsVal d := by
  unfold padZeros digitsVal
  rw [List.foldl_append]
  have : ∀ m : Nat, (List.replicate m '0').foldl (fun acc c => 10 * acc + digitVal c) 0 = 0 := by
    intro m
    induction m with
    | zero => rfl
    | succ m ih =>
      rw [List.replicate_succ, List.foldl_cons]
      have h0 : (10 * 0 + digitVal '0') = 0 := by decide
      rw [h0, ih]
  rw [this]

/-- Helper: takeWhile over an all-satisfying leading segment. -/
theorem takeWhile_append_all {α : Type} (p : α → Bool) (l1 l2 : List α)
    (h : ∀ c ∈ l1, p c = true) : (l1 ++ l2).takeWhile p = l1 ++ l2.takeWhile p := by
  induction l1 with
  | nil => rfl
  | cons c cs ih =>
    rw [List.cons_append, List.takeWhile_cons_of_pos (h c (List.mem_cons_self _ _)),
      ih (fun x hx => h x (List.mem_cons_of_mem _ hx)), List.cons_append]

/-- Helper: dropWhile over an all-satisfying leading segment. -/
theorem dropWhile_append_all {α : Type} (p : α → Bool) (l1 l2 : List α)
    (h : ∀ c ∈ l1, p c = true) : (l1 ++ l2).dropWhile p = l2.dropWhile p := by
  induction l1 with
  | nil => rfl
  | cons c cs ih =>
    rw [List.cons_append, List.dropWhile_cons_of_pos (h c (List.mem_cons_self _ _)),
      ih (fun x hx => h x (List.mem_cons_of_mem _ hx))]

/-- Helper: rounding a nonnegative value is nonnegative. -/
theorem rnd_nonneg (q : ℚ) (hq : 0 ≤ q) : 0 ≤ rnd q := by
  have hfl : (0 : Int) ≤ ⌊q⌋ := Int.floor_nonneg.mpr hq
  unfold rnd
  split_ifs <;> omega

/-- Helper: the rendering of a number below the power bound fits in the
padded width. -/
theorem natDec_length_le (m e : Nat) (he : 0 < e) (hm : m < 10 ^ e) :
    (natDec m).length ≤ e := by
  unfold natDec
  split
  · simpa using he
  · rw [List.length_reverse, List.length_map,
      Nat.digits_len 10 m (by norm_num) (by assumption)]
    have hlog : Nat.log 10 m < e := Nat.log_lt_of_lt_pow (by assumption) hm
    omega

/-- Helper: parsing a fixed-point digit rendering recovers the scaled
value. -/
theorem parseUFloat_fixed (n : Nat) (e : Nat) (he : 0 < e) :
    parseUFloat (natDec (n / 10 ^ e) ++ '.' :: padZeros e (natDec (n % 10 ^ e)))
      = some (Rat.divInt (n : Int) ((10 : Int) ^ e)) := by
  have hipd := natDec_digits (n / 10 ^ e)
  have hfrd := padZeros_digits e _ (natDec_digits (n % 10 ^ e))
  have hdot : ('.').isDigit = false := by decide
  have hlen : (padZeros e (natDec (n % 10 ^ e))).length = e := by
    unfold padZeros
    rw [List.length_append, List.length_replicate]
    have hle : (natDec (n % 10 ^ e)).length ≤ e :=
      natDec_length_le _ e he (Nat.mod_lt _ (by positivity))
    omega
  unfold parseUFloat
  rw [takeWhile_append_all _ _ _ hipd, dropWhile_append_all _ _ _ hipd,
    List.takeWhile_cons_of_neg (by simp [hdot]), List.dropWhile_cons_of_neg (by simp [hdot]),
    List.append_nil]
  split
  · next heq => exact absurd heq (by simp)
  · next frac heq =>
    have hfr : frac = padZeros e (natDec (n % 10 ^ e)) := by
      injection heq with _ h2
      exact h2.symm
    subst hfr
    rw [if_pos]
    · rw [hlen, digitsVal_padZeros, digitsVal_natDec, digitsVal_natDec]
      have hdm : n / 10 ^ e * 10 ^ e + n % 10 ^ e = n := Nat.div_add_mod' n (10 ^ e)
      have hdm2 : ((n / 10 ^ e : Nat) : Int) * (10 : Int) ^ e + ((n % 10 ^ e : Nat) : Int)
          = (n : Int) := by exact_mod_cast hdm
      rw [hdm2]
    · rw [Bool.and_eq_true]
      constructor
      · exact List.all_eq_true.mpr hfrd
      · rw [Bool.or_eq_true]
        left
        simp [natDec_ne_nil]
  · next h1 h2 =>
    exact absurd rfl (h2 (padZeros e (natDec (n % 10 ^ e))))

/-- Helper: Python float() of a fixed-point digit rendering. -/
theorem pyParseFloat_fixfmt (n : Nat) (e : Nat) (he : 0 < e) :
    pyParseFloat (natDec (n / 10 ^ e) ++ '.' :: padZeros e (natDec (n % 10 ^ e)))
      = some (Rat.divInt (n : Int) ((10 : Int) ^ e)) := by
  set l := natDec (n / 10 ^ e) ++ '.' :: padZeros e (natDec (n % 10 ^ e)) with hl
  have hnws : ∀ c ∈ l, c.isWhitespace = false := by
    intro c hc
    rw [hl] at hc
    rcases List.mem_append.mp hc with h | h
    · exact isDigit_not_ws _ (natDec_digits _ _ h)
    · rcases List.mem_cons.mp h with h | h
      · rw [h]
        decide
      · exact isDigit_not_ws _ (padZeros_digits _ _ (natDec_digits _) _ h)
  obtain ⟨c, cs, hcc⟩ : ∃ c cs, natDec (n / 10 ^ e) = c :: cs := by
    rcases hnd : natDec (n / 10 ^ e) with _ | ⟨c, cs⟩
    · exact absurd hnd (natDec_ne_nil _)
    · exact ⟨c, cs, rfl⟩
  have hcd : c.isDigit = true := by
    have : c ∈ natDec (n / 10 ^ e) := by
      rw [hcc]
      exact List.mem_cons_self _ _
    exact natDec_digits _ c this
  obtain ⟨hc1, hc2, _⟩ := isDigit_ne c hcd
  have hlc : l = c :: (cs ++ '.' :: padZeros e (natDec (n % 10 ^ e))) := by
    rw [hl, hcc]
    rfl
  unfold pyParseFloat
  rw [stripChars_of_no_ws _ hnws, hlc]
  split
  · next rest heq =>
    injection heq with h1 _
    exact absurd h1 hc1
  · next rest heq =>
    injection heq with h1 _
    exact absurd h1 hc2
  · rw [← hlc, hl]
    exact parseUFloat_fixed n e he

/-- Helper: Python float() of the %.3f rendering of a nonnegative value
denotes round3 of that value. -/
theorem pyParseFloat_fmt3 (q : ℚ) (hq : 0 ≤ q) : pyParseFloat (fmt3 q) = some (round3 q) := by
  have hfmt : fmt3 q = natDec ((rnd (q * 1000)).toNat / 10 ^ 3) ++ '.' ::
      padZeros 3 (natDec ((rnd (q * 1000)).toNat % 10 ^ 3)) := by
    unfold fmt3
    norm_num
  rw [hfmt, pyParseFloat_fixfmt _ 3 (by norm_num)]
  congr 1
  unfold round3
  rw [Rat.divInt_eq_div]
  have hnn : (0 : Int) ≤ rnd (q * 1000) := rnd_nonneg _ (mul_nonneg hq (by norm_num))
  rw [show (((rnd (q * 1000)).toNat : Int) : ℚ) = ((rnd (q * 1000) : Int) : ℚ) by
    rw [Int.toNat_of_nonneg hnn]]
  norm_num

/-- Helper: Python float() of the %.6f rendering of a nonnegative value
denotes round6 of that value. -/
theorem pyParseFloat_fmt6 (q : ℚ) (hq : 0 ≤ q) : pyParseFloat (fmt6 q) = some (round6 q) := by
  have hfmt : fmt6 q = natDec ((rnd (q * 1000000)).toNat / 10 ^ 6) ++ '.' ::
      padZeros 6 (natDec ((rnd (q * 1000000)).toNat % 10 ^ 6)) := by
    unfold fmt6
    norm_num
  rw [hfmt, pyParseFloat_fixfmt _ 6 (by norm_num)]
  congr 1
  unfold round6
  rw [Rat.divInt_eq_div]
  have hnn : (0 : Int) ≤ rnd (q * 1000000) := rnd_nonneg _ (mul_nonneg hq (by norm_num))
  rw [show (((rnd (q * 1000000)).toNat : Int) : ℚ) = ((rnd (q * 1000000) : Int) : ℚ) by
    rw [Int.toNat_of_nonneg hnn]]
  norm_num

/-- Helper: one split step over a non-whitespace character. -/
theorem splitWsAux_cons_no_ws (c : Char) (hc : c.isWhitespace = false)
    (l acc : List Char) : splitWsAux (c :: l) acc = splitWsAux l (c :: acc) := by
  have hdef : splitWsAux (c :: l) acc
      = if c.isWhitespace then
          (if acc.isEmpty then splitWsAux l [] else acc.reverse :: splitWsAux l [])
        else splitWsAux l (c :: acc) := rfl
  rw [hdef, hc]
  simp

/-- Helper: one split step over a space character. -/
theorem splitWsAux_cons_space (l acc : List Char) :
    splitWsAux (' ' :: l) acc
      = if acc.isEmpty then splitWsAux l [] else acc.reverse :: splitWsAux l [] := by
  have hdef : splitWsAux (' ' :: l) acc
      = if (' ').isWhitespace then
          (if acc.isEmpty then splitWsAux l [] else acc.reverse :: splitWsAux l [])
        else splitWsAux l (' ' :: acc) := rfl
  rw [hdef, if_pos (show (' ').isWhitespace = true by decide)]

/-- Helper: the split worker swallows a whitespace-free word into the
accumulator. -/
theorem splitWsAux_word (w : List Char) (hw : ∀ c ∈ w, c.isWhitespace = false) :
    ∀ (l : List Char) (acc : List Char),
      splitWsAux (w ++ l) acc = splitWsAux l (w.reverse ++ acc) := by
  induction w with
  | nil =>
    intro l acc
    simp
  | cons c cs ih =>
    intro l acc
    rw [List.cons_append, splitWsAux_cons_no_ws c (hw c (List.mem_cons_self _ _)),
      ih (fun x hx => hw x (List.mem_cons_of_mem _ hx)) l (c :: acc)]
    congr 1
    simp

/-- Helper: leading spaces are discarded by split. -/
theorem splitWs_spaces (n : Nat) (l : List Char) :
    splitWs (spaces n ++ l) = splitWs l := by
  induction n with
  | zero => rfl
  | succ n ih =>
    show splitWsAux (List.replicate (n + 1) ' ' ++ l) [] = _
    rw [List.replicate_succ, List.cons_append, splitWsAux_cons_space]
    simp only [List.isEmpty_nil, if_true, ite_true]
    exact ih

/-- Helper: a word followed by at least one space is one token. -/
theorem splitWs_word_sep (w : List Char) (hw : w ≠ [])
    (hnw : ∀ c ∈ w, c.isWhitespace = false) (k : Nat) (hk : k ≠ 0) (l : List Char) :
    splitWs (w ++ (spaces k ++ l)) = w :: splitWs l := by
  obtain ⟨m, rfl⟩ : ∃ m, k = m + 1 := ⟨k - 1, by omega⟩
  show splitWsAux (w ++ (spaces (m + 1) ++ l)) [] = _
  rw [splitWsAux_word w hnw, List.append_nil]
  show splitWsAux (List.replicate (m + 1) ' ' ++ l) w.reverse = _
  rw [List.replicate_succ, List.cons_append, splitWsAux_cons_space,
    if_neg (by simpa using hw), List.reverse_reverse]
  have hsp : splitWsAux (List.replicate m ' ' ++ l) [] = splitWs l := splitWs_spaces m l
  rw [hsp]

/-- Helper: a single whitespace-free word splits to itself. -/
theorem splitWs_word_nil (w : List Char) (hw : w ≠ [])
    (hnw : ∀ c ∈ w, c.isWhitespace = false) : splitWs w = [w] := by
  show splitWsAux w [] = _
  rw [show w = w ++ ([] : List Char) by simp]
  rw [splitWsAux_word w hnw]
  have hdef : splitWsAux ([] : List Char) (w.reverse ++ [])
      = if (w.reverse ++ []).isEmpty then [] else [(w.reverse ++ []).reverse] := rfl
  rw [hdef, if_neg (by simpa using hw)]
  simp

/-- Helper: space runs concatenate. -/
theorem spaces_append (a b : Nat) : spaces a ++ spaces b = spaces (a + b) := by
  unfold spaces
  exact (List.replicate_add a b ' ').symm

/-- Helper: a %.3f rendering is nonempty. -/
theorem fmt3_ne_nil (q : ℚ) : fmt3 q ≠ [] := by
  unfold fmt3
  intro hc
  rw [List.append_eq_nil] at hc
  exact natDec_ne_nil _ hc.1

/-- Helper: a %.3f rendering contains no whitespace. -/
theorem fmt3_no_ws (q : ℚ) : ∀ c ∈ fmt3 q, c.isWhitespace = false := by
  intro c hc
  unfold fmt3 at hc
  rcases List.mem_append.mp hc with h | h
  · exact isDigit_not_ws _ (natDec_digits _ _ h)
  · rcases List.mem_cons.mp h with h | h
    · rw [h]
      decide
    · exact isDigit_not_ws _ (padZeros_digits _ _ (natDec_digits _) _ h)

/-- Helper: a %.3f rendering contains no comma. -/
theorem fmt3_no_comma (q : ℚ) : ∀ c ∈ fmt3 q, ¬ c = ',' := by
  intro c hc
  unfold fmt3 at hc
  rcases List.mem_append.mp hc with h | h
  · exact (isDigit_ne _ (natDec_digits _ _ h)).2.2.1
  · rcases List.mem_cons.mp h with h | h
    · rw [h]
      decide
    · exact (isDigit_ne _ (padZeros_digits _ _ (natDec_digits _) _ h)).2.2.1

/-- Helper: a %.6f rendering is nonempty. -/
theorem fmt6_ne_nil (q : ℚ) : fmt6 q ≠ [] := by
  unfold fmt6
  intro hc
  rw [List.append_eq_nil] at hc
  exact natDec_ne_nil _ hc.1

/-- Helper: a %.6f rendering contains no whitespace. -/
theorem fmt6_no_ws (q : ℚ) : ∀ c ∈ fmt6 q, c.isWhitespace = false := by
  intro c hc
  unfold fmt6 at hc
  rcases List.mem_append.mp hc with h | h
  · exact isDigit_not_ws _ (natDec_digits _ _ h)
  · rcases List.mem_cons.mp h with h | h
    · rw [h]
      decide
    · exact isDigit_not_ws _ (padZeros_digits _ _ (natDec_digits _) _ h)

/-- Helper: an integer rendering is nonempty. -/
theorem intDec_ne_nil (i : Int) : intDec i ≠ [] := by
  unfold intDec
  split
  · simp
  · exact natDec_ne_nil _

/-- Helper: an integer rendering contains no whitespace. -/
theorem intDec_no_ws (i : Int) : ∀ c ∈ intDec i, c.isWhitespace = false := by
  intro c hc
  unfold intDec at hc
  split at hc
  · rcases List.mem_cons.mp hc with h | h
    · rw [h]
      decide
    · exact isDigit_not_ws _ (natDec_digits _ _ h)
  · exact isDigit_not_ws _ (natDec_digits _ _ hc)

/-- Helper: splitting the comma-space join of words yields the words with
their trailing commas. -/
theorem splitWs_joinSep (fmts : List (List Char))
    (h : ∀ f ∈ fmts, f ≠ [] ∧ ∀ c ∈ f, c.isWhitespace = false) :
    splitWs (joinSep (chars (", ")) fmts) = commaMarked fmts := by
  induction fmts with
  | nil => rfl
  | cons x rest ih =>
    rcases rest with _ | ⟨y, rest2⟩
    · obtain ⟨hx1, hx2⟩ := h x (List.mem_cons_self _ _)
      exact splitWs_word_nil x hx1 hx2
    · obtain ⟨hx1, hx2⟩ := h x (List.mem_cons_self _ _)
      show splitWs (x ++ chars (", ") ++ joinSep (chars (", ")) (y :: rest2)) = _
      have hre : x ++ chars (", ") ++ joinSep (chars (", ")) (y :: rest2)
          = (x ++ [',']) ++ (spaces 1 ++ joinSep (chars (", ")) (y :: rest2)) := by
        simp [chars, spaces, List.append_assoc]
      rw [hre, splitWs_word_sep (x ++ [',']) (by simp) ?_ 1 (by norm_num)]
      · rw [ih (fun f hf => h f (List.mem_cons_of_mem _ hf))]
        rfl
      · intro c hc
        rcases List.mem_append.mp hc with h2 | h2
        · exact hx2 c h2
        · rw [List.mem_singleton.mp h2]
          decide

/-- Helper: one comma-split step over a non-comma character. -/
theorem splitCommaAux_cons_no (c : Char) (hc : ¬ c = ',') (l acc : List Char) :
    splitCommaAux (c :: l) acc = splitCommaAux l (c :: acc) := by
  have hdef : splitCommaAux (c :: l) acc
      = if c == ',' then acc.reverse :: splitCommaAux l []
        else splitCommaAux l (c :: acc) := rfl
  rw [hdef, if_neg (by simpa using hc)]

/-- Helper: one comma-split step over a comma. -/
theorem splitCommaAux_cons_comma (l acc : List Char) :
    splitCommaAux (',' :: l) acc = acc.reverse :: splitCommaAux l [] := rfl

/-- Helper: the comma-split worker swallows a comma-free word. -/
theorem splitCommaAux_word (w : List Char) (hw : ∀ c ∈ w, ¬ c = ',') :
    ∀ (l acc : List Char), splitCommaAux (w ++ l) acc = splitCommaAux l (w.reverse ++ acc) := by
  induction w with
  | nil =>
    intro l acc
    simp
  | cons c cs ih =>
    intro l acc
    rw [List.cons_append, splitCommaAux_cons_no c (hw c (List.mem_cons_self _ _)),
      ih (fun x hx => hw x (List.mem_cons_of_mem _ hx)) l (c :: acc)]
    congr 1
    simp

/-- Helper: comma-splitting never produces an empty chunk list. -/
theorem splitCommaAux_ne_nil (l : List Char) : ∀ acc, splitCommaAux l acc ≠ [] := by
  induction l with
  | nil =>
    intro acc
    simp [splitCommaAux]
  | cons c cs ih =>
    intro acc
    by_cases hc : c = ','
    · subst hc
      rw [splitCommaAux_cons_comma]
      simp
    · rw [splitCommaAux_cons_no c hc]
      exact ih _

/-- Helper: the accumulator of the comma-split worker prefixes the first
chunk. -/
theorem splitCommaAux_acc (l : List Char) : ∀ acc : List Char,
    splitCommaAux l acc
      = (acc.reverse ++ (splitCommaAux l []).headD []) :: (splitCommaAux l []).tail := by
  induction l with
  | nil =>
    intro acc
    simp [splitCommaAux]
  | cons c cs ih =>
    intro acc
    by_cases hc : c = ','
    · subst hc
      rw [splitCommaAux_cons_comma, splitCommaAux_cons_comma]
      simp
    · rw [splitCommaAux_cons_no c hc, splitCommaAux_cons_no c hc, ih (c :: acc), ih [c]]
      simp

/-- Helper: joining a list with a head and nonempty tail. -/
theorem joinSep_cons (sep x : List Char) (ys : List (List Char)) (h : ys ≠ []) :
    joinSep sep (x :: ys) = x ++ sep ++ joinSep sep ys := by
  rcases ys with _ | ⟨y, t⟩
  · exact absurd rfl h
  · rfl

/-- Helper: comma marking never empties a nonempty list. -/
theorem commaMarked_cons_ne_nil (x : List Char) (xs : List (List Char)) :
    commaMarked (x :: xs) ≠ [] := by
  rcases xs with _ | ⟨y, t⟩ <;> simp [commaMarked]

/-- Helper: comma-splitting the space-join of comma-marked words recovers
each word, the later ones with the separating space attached. -/
theorem splitComma_joinSp (f : List Char) (rest : List (List Char))
    (hf : ∀ c ∈ f, ¬ c = ',') (hrest : ∀ g ∈ rest, ∀ c ∈ g, ¬ c = ',') :
    splitComma (joinSep [' '] (commaMarked (f :: rest)))
      = f :: rest.map (fun g => ' ' :: g) := by
  induction rest generalizing f with
  | nil =>
    show splitCommaAux f [] = [f]
    conv_lhs => rw [show f = f ++ ([] : List Char) by simp]
    rw [splitCommaAux_word f hf]
    simp [splitCommaAux]
  | cons g rest2 ih =>
    have h1 : commaMarked (f :: g :: rest2) = (f ++ [',']) :: commaMarked (g :: rest2) := rfl
    have h2 : joinSep [' '] ((f ++ [',']) :: commaMarked (g :: rest2))
        = (f ++ [',']) ++ [' '] ++ joinSep [' '] (commaMarked (g :: rest2)) :=
      joinSep_cons _ _ _ (commaMarked_cons_ne_nil g rest2)
    show splitComma (joinSep [' '] (commaMarked (f :: g :: rest2))) = _
    rw [h1, h2]
    show splitCommaAux ((f ++ [',']) ++ [' '] ++ joinSep [' '] (commaMarked (g :: rest2))) []
      = f :: (g :: rest2).map (fun x => ' ' :: x)
    rw [show (f ++ [',']) ++ [' '] ++ joinSep [' '] (commaMarked (g :: rest2))
        = f ++ ([','] ++ (' ' :: joinSep [' '] (commaMarked (g :: rest2)))) by
      simp [List.append_assoc]]
    rw [splitCommaAux_word f hf, List.append_nil, List.singleton_append,
      splitCommaAux_cons_comma, List.reverse_reverse,
      splitCommaAux_cons_no ' ' (by decide), splitCommaAux_acc _ [' ']]
    have hih := ih g (hrest g (List.mem_cons_self _ _))
      (fun x hx => hrest x (List.mem_cons_of_mem _ hx))
    rw [show splitCommaAux (joinSep [' '] (commaMarked (g :: rest2))) []
        = splitComma (joinSep [' '] (commaMarked (g :: rest2))) from rfl, hih]
    simp

/-- Helper: dropWhile over an append whose final element fails the test. -/
theorem dropWhile_append_singleton {α : Type} (p : α → Bool) (a : List α) (x : α)
    (hx : p x = false) : (a ++ [x]).dropWhile p = a.dropWhile p ++ [x] := by
  induction a with
  | nil => simp [List.dropWhile, hx]
  | cons h t ih =>
    by_cases hp : p h = true
    · simp [List.dropWhile_cons, hp, ih]
    · simp [List.dropWhile_cons, hp]

/-- Helper: strip keeps a non-whitespace head. -/
theorem stripChars_cons_nonws (c : Char) (l : List Char) (hc : c.isWhitespace = false) :
    stripChars (c :: l) = c :: (l.reverse.dropWhile Char.isWhitespace).reverse := by
  unfold stripChars
  rw [List.dropWhile_cons, if_neg (by simp [hc]), List.reverse_cons,
    dropWhile_append_singleton _ _ _ hc]
  simp

/-- Helper: strip discards a leading space. -/
theorem stripChars_cons_space (l : List Char) : stripChars (' ' :: l) = stripChars l := by
  unfold stripChars
  rw [List.dropWhile_cons, if_pos (by decide)]

/-- Helper: dropWhile whitespace ignores a leading space run. -/
theorem dropWhile_spaces_append (k : Nat) (l : List Char) :
    (spaces k ++ l).dropWhile Char.isWhitespace = l.dropWhile Char.isWhitespace := by
  induction k with
  | zero => rfl
  | succ n ih =>
    rw [show spaces (n + 1) = ' ' :: spaces n from by simp [spaces, List.replicate_succ]]
    rw [List.cons_append, List.dropWhile_cons, if_pos (by decide)]
    exact ih

/-- Helper: strip ignores a leading space run. -/
theorem stripChars_spaces_append (k : Nat) (l : List Char) :
    stripChars (spaces k ++ l) = stripChars l := by
  unfold stripChars
  rw [dropWhile_spaces_append]

/-- Helper: a prefix test fails on a head mismatch. -/
theorem isPrefC_cons_false (p c : Char) (ps cs : List Char) (h : ¬ p = c) :
    isPrefC (p :: ps) (c :: cs) = false := by
  show (p == c && isPrefC ps cs) = false
  simp [h]

/-- Helper: a prefix test with a non-space head fails when the head of the
line (space if empty) differs. -/
theorem isPrefC_false_of_headD (p : Char) (ps l : List Char)
    (h : ¬ l.headD ' ' = p) : isPrefC (p :: ps) l = false := by
  rcases l with _ | ⟨c, cs⟩
  · rfl
  · exact isPrefC_cons_false p c ps cs (fun hc => h (by simp [hc]))

/-- Helper: a prefix test with a head that is neither a space nor the first
character behind the space run fails. -/
theorem isPrefC_false_spaces (p : Char) (ps : List Char) (k : Nat) (c : Char) (cs : List Char)
    (hp : ¬ p = ' ') (hc : ¬ p = c) : isPrefC (p :: ps) (spaces k ++ c :: cs) = false := by
  cases k with
  | zero => exact isPrefC_cons_false p c ps cs hc
  | succ n =>
    rw [show spaces (n + 1) ++ c :: cs = ' ' :: (spaces n ++ c :: cs) from by
      simp [spaces, List.replicate_succ]]
    exact isPrefC_cons_false p ' ' ps _ hp

/-- Helper: a line whose head is not a dash is not a dash separator. -/
theorem allDash_cons_false (c : Char) (l : List Char) (h : ¬ c = '-') :
    allDash (c :: l) = false := by
  simp [allDash, h]

/-- Helper: the per-radio marker line switches the section, whatever the
state. -/
theorem parse_line_mark1 (sect : Option SectionTag) (rad : List (List Char × Radio))
    (fts : List (ℚ × Int)) :
    parse_line ⟨sect, rad, fts⟩ (chars ("=== Per-Radio Summary ==="))
      = ⟨some .per_radio, rad, fts⟩ := rfl

/-- Helper: the freq-totals marker line switches the section, whatever the
state. -/
theorem parse_line_mark2 (sect : Option SectionTag) (rad : List (List Char × Radio))
    (fts : List (ℚ × Int)) :
    parse_line ⟨sect, rad, fts⟩ (chars ("=== Strongest Center Frequencies (by total messages) ==="))
      = ⟨some .freq_totals, rad, fts⟩ := rfl

/-- Helper: the message-types marker line resets the section. -/
theorem parse_line_mark3 (sect : Option SectionTag) (rad : List (List Char × Radio))
    (fts : List (ℚ × Int)) :
    parse_line ⟨sect, rad, fts⟩ (chars ("=== Message Types Totals ==="))
      = ⟨none, rad, fts⟩ := rfl

/-- Helper: a blank line leaves any in-section state unchanged. -/
theorem parse_line_blank (tag : SectionTag) (rad : List (List Char × Radio))
    (fts : List (ℚ × Int)) :
    parse_line ⟨some tag, rad, fts⟩ [] = ⟨some tag, rad, fts⟩ := rfl

/-- Helper: the per-radio column header line is skipped. -/
theorem parse_line_hdr1 (tag : SectionTag) (rad : List (List Char × Radio))
    (fts : List (ℚ × Int)) :
    parse_line ⟨some tag, rad, fts⟩ (chars ("Total   Freqs   ID         Type      CenterFreqs (MHz)"))
      = ⟨some tag, rad, fts⟩ := rfl

/-- Helper: the per-radio separator line parses as no data row. -/
theorem parse_line_sep1 (rad : List (List Char × Radio)) (fts : List (ℚ × Int)) :
    parse_line ⟨some .per_radio, rad, fts⟩ (chars ("-----   -----   ---------- --------  ------------------"))
      = ⟨some .per_radio, rad, fts⟩ := rfl

/-- Helper: the freq-totals column header line is skipped. -/
theorem parse_line_hdr2 (tag : SectionTag) (rad : List (List Char × Radio))
    (fts : List (ℚ × Int)) :
    parse_line ⟨some tag, rad, fts⟩ (chars ("Total   CenterFreq (MHz)"))
      = ⟨some tag, rad, fts⟩ := rfl

/-- Helper: the freq-totals separator line parses as no data row. -/
theorem parse_line_sep2 (rad : List (List Char × Radio)) (fts : List (ℚ × Int)) :
    parse_line ⟨some .freq_totals, rad, fts⟩ (chars ("-----   ----------------"))
      = ⟨some .freq_totals, rad, fts⟩ := rfl

/-- Helper: out of the two report sections, a blank line changes nothing. -/
theorem parse_line_none_blank (rad : List (List Char × Radio)) (fts : List (ℚ × Int)) :
    parse_line ⟨none, rad, fts⟩ [] = ⟨none, rad, fts⟩ := rfl

/-- Helper: the message-types column header is ignored out of section. -/
theorem parse_line_hdr3 (rad : List (List Char × Radio)) (fts : List (ℚ × Int)) :
    parse_line ⟨none, rad, fts⟩ (chars ("Type     Total")) = ⟨none, rad, fts⟩ := rfl

/-- Helper: the message-types separator is ignored out of section. -/
theorem parse_line_sep3 (rad : List (List Char × Radio)) (fts : List (ℚ × Int)) :
    parse_line ⟨none, rad, fts⟩ (chars ("-------- -----")) = ⟨none, rad, fts⟩ := rfl

/-- Helper: the suggestion banner line is ignored out of section. -/
theorem parse_line_sugg (rad : List (List Char × Radio)) (fts : List (ℚ × Int)) :
    parse_line ⟨none, rad, fts⟩ (chars ("[*] Suggested rtlamr command to track strongest meter:"))
      = ⟨none, rad, fts⟩ := rfl

/-- Helper: out of the two sections, a line whose strip does not open with
the marker character changes nothing. -/
theorem parse_line_none_skip (rad : List (List Char × Radio)) (fts : List (ℚ × Int))
    (line : List Char) (h : ¬ (stripChars line).headD ' ' = '=') :
    parse_line ⟨none, rad, fts⟩ line = ⟨none, rad, fts⟩ := by
  have h1 : isPrefC (chars ("=== Per-Radio Summary")) (stripChars line) = false := by
    rw [show chars ("=== Per-Radio Summary") = '=' :: chars ("== Per-Radio Summary") from rfl]
    exact isPrefC_false_of_headD '=' _ _ h
  have h2 : isPrefC (chars ("=== Strongest Center Frequencies")) (stripChars line) = false := by
    rw [show chars ("=== Strongest Center Frequencies")
        = '=' :: chars ("== Strongest Center Frequencies") from rfl]
    exact isPrefC_false_of_headD '=' _ _ h
  simp only [parse_line, h1, h2, Bool.false_eq_true, if_false, ite_self]

/-- Helper: the per-radio row in space-run normal form. -/
theorem radioRowLine_eq (r : RadioStats) :
    radioRowLine r
      = spaces (5 - (natDec r.count).length)
        ++ (natDec r.count
        ++ (spaces (3 + (5 - (natDec r.freqs.length).length))
        ++ (natDec r.freqs.length
        ++ (spaces (3 + (10 - (intDec r.id).length))
        ++ (intDec r.id
        ++ (spaces 1
        ++ (r.type
        ++ (spaces ((8 - r.type.length) + 2)
        ++ joinSep (chars (", "))
            ((sortFreqKeysAsc (r.freqs.map Prod.fst)).map fmt3))))))))) := by
  simp only [radioRowLine, padLeftC, padRightC, ← spaces_append, List.append_assoc]

/-- Helper: whitespace-splitting a per-radio row yields the four fixed
columns then the comma-marked frequency tokens. -/
theorem splitWs_radioRow (r : RadioStats) (htne : r.type ≠ [])
    (htw : ∀ c ∈ r.type, c.isWhitespace = false) :
    splitWs (radioRowLine r)
      = natDec r.count :: natDec r.freqs.length :: intDec r.id :: r.type ::
        commaMarked ((sortFreqKeysAsc (r.freqs.map Prod.fst)).map fmt3) := by
  rw [radioRowLine_eq, splitWs_spaces,
    splitWs_word_sep _ (natDec_ne_nil _)
      (fun c hc => isDigit_not_ws c (natDec_digits _ c hc)) _ (by omega),
    splitWs_word_sep _ (natDec_ne_nil _)
      (fun c hc => isDigit_not_ws c (natDec_digits _ c hc)) _ (by omega),
    splitWs_word_sep _ (intDec_ne_nil _) (intDec_no_ws _) 1 one_ne_zero,
    splitWs_word_sep _ htne htw _ (by omega),
    splitWs_joinSep _ (fun f hf => ?_)]
  obtain ⟨q, hq, rfl⟩ := List.mem_map.mp hf
  exact ⟨fmt3_ne_nil q, fmt3_no_ws q⟩

/-- Helper: parsing the space-carrying later chunks of a frequency list
recovers the 3-decimal rounded values. -/
theorem filterMap_chunks_spaced (qs : List ℚ) : (∀ q ∈ qs, 0 ≤ q) →
    ((qs.map fmt3).map (fun g => ' ' :: g)).filterMap
      (fun chunk => let c := stripChars chunk; if c.isEmpty then none else pyParseFloat c)
      = qs.map round3 := by
  induction qs with
  | nil => intro _; rfl
  | cons q qs ih =>
    intro h
    simp only [List.map_cons, List.filterMap_cons]
    rw [stripChars_cons_space, stripChars_of_no_ws _ (fmt3_no_ws q),
      if_neg (by simpa using fmt3_ne_nil q),
      pyParseFloat_fmt3 q (h q (List.mem_cons_self _ _)),
      ih (fun x hx => h x (List.mem_cons_of_mem _ hx))]

/-- Helper: a written per-radio row parses back to exactly the stored-radio
update with the printed id and the 3-decimal rounded sorted frequencies. -/
theorem perRadioRow_radioRow (rad : List (List Char × Radio)) (r : RadioStats)
    (hfne : r.freqs ≠ []) (htne : r.type ≠ [])
    (htw : ∀ c ∈ r.type, c.isWhitespace = false) (hpos : ∀ p ∈ r.freqs, 0 ≤ p.1) :
    perRadioRow rad (radioRowLine r) = setKey rad (intDec r.id) (parsedOfStats r) := by
  have hs := splitWs_radioRow r htne htw
  have hnn : ∀ q ∈ sortFreqKeysAsc (r.freqs.map Prod.fst), 0 ≤ q := by
    intro q hq
    have hq2 : q ∈ r.freqs.map Prod.fst :=
      (List.mergeSort_perm (r.freqs.map Prod.fst) (fun a b => decide (a ≤ b))).mem_iff.mp hq
    obtain ⟨p, hp, rfl⟩ := List.mem_map.mp hq2
    exact hpos p hp
  have hne2 : sortFreqKeysAsc (r.freqs.map Prod.fst) ≠ [] := by
    intro hc
    have hperm := List.mergeSort_perm (r.freqs.map Prod.fst) (fun a b => decide (a ≤ b))
    rw [show sortFreqKeysAsc (r.freqs.map Prod.fst)
        = (r.freqs.map Prod.fst).mergeSort (fun a b => decide (a ≤ b)) from rfl] at hc
    rw [hc] at hperm
    exact hfne (List.map_eq_nil.mp hperm.symm.eq_nil)
  have hpar : parsedOfStats r
      = ⟨intDec r.id, r.type, (r.count : Int), (r.freqs.length : Int),
         (sortFreqKeysAsc (r.freqs.map Prod.fst)).map round3, none⟩ := rfl
  rcases hfm : sortFreqKeysAsc (r.freqs.map Prod.fst) with _ | ⟨q0, qrest⟩
  · exact absurd hfm hne2
  rw [hfm] at hs hnn hpar
  rcases hcm : commaMarked ((q0 :: qrest).map fmt3) with _ | ⟨r0, rest⟩
  · rw [List.map_cons] at hcm
    exact absurd hcm (commaMarked_cons_ne_nil _ _)
  rw [hcm] at hs
  have hno : ∀ g ∈ qrest.map fmt3, ∀ c ∈ g, ¬ c = ',' := by
    intro g hg
    obtain ⟨q, _, rfl⟩ := List.mem_map.mp hg
    exact fmt3_no_comma q
  have hcfs : (splitComma (joinSep [' '] (r0 :: rest))).filterMap
      (fun chunk => let c := stripChars chunk; if c.isEmpty then none else pyParseFloat c)
      = (q0 :: qrest).map round3 := by
    rw [← hcm, List.map_cons,
      splitComma_joinSp (fmt3 q0) (qrest.map fmt3) (fmt3_no_comma q0) hno]
    simp only [List.filterMap_cons]
    rw [stripChars_of_no_ws _ (fmt3_no_ws q0), if_neg (by simpa using fmt3_ne_nil q0),
      pyParseFloat_fmt3 q0 (hnn q0 (List.mem_cons_self _ _)),
      filterMap_chunks_spaced qrest (fun x hx => hnn x (List.mem_cons_of_mem _ hx))]
    rfl
  simp only [perRadioRow, hs, pyParseInt_natDec]
  rw [hcfs, hpar]

/-- Helper: a line that is a space run followed by a digit-headed word
fails all marker, header and separator guards of the parse loop. -/
theorem dataRow_guards (line : List Char) (k : Nat) (d : Char) (W : List Char)
    (hline : line = spaces k ++ (d :: W)) (hd : d.isDigit = true) :
    isPrefC (chars ("=== Per-Radio Summary")) (stripChars line) = false
    ∧ isPrefC (chars ("=== Strongest Center Frequencies")) (stripChars line) = false
    ∧ isPrefC (chars ("===")) line = false
    ∧ (stripChars line).isEmpty = false
    ∧ isPrefC (chars ("Total")) (stripChars line) = false
    ∧ allDash (stripChars line) = false := by
  obtain ⟨hd1, hd2, hd3, hd4, hd5, hd6⟩ := isDigit_ne d hd
  have hstrip : stripChars line = d :: (W.reverse.dropWhile Char.isWhitespace).reverse := by
    rw [hline, stripChars_spaces_append, stripChars_cons_nonws d W (isDigit_not_ws d hd)]
  refine ⟨?_, ?_, ?_, ?_, ?_, ?_⟩
  · rw [hstrip, show chars ("=== Per-Radio Summary")
      = '=' :: chars ("== Per-Radio Summary") from rfl]
    exact isPrefC_cons_false _ _ _ _ (fun hc => hd4 hc.symm)
  · rw [hstrip, show chars ("=== Strongest Center Frequencies")
      = '=' :: chars ("== Strongest Center Frequencies") from rfl]
    exact isPrefC_cons_false _ _ _ _ (fun hc => hd4 hc.symm)
  · rw [hline, show chars ("===") = '=' :: chars ("==") from rfl]
    exact isPrefC_false_spaces '=' _ k d _ (by decide) (fun hc => hd4 hc.symm)
  · rw [hstrip]
    rfl
  · rw [hstrip, show chars ("Total") = 'T' :: chars ("otal") from rfl]
    exact isPrefC_cons_false _ _ _ _ (fun hc => hd5 hc.symm)
  · rw [hstrip]
    exact allDash_cons_false d _ hd1

/-- Helper: in the per-radio section a digit-headed line goes to the row
parser. -/
theorem parse_line_perRadioData (rad : List (List Char × Radio)) (fts : List (ℚ × Int))
    (line : List Char) (k : Nat) (d : Char) (W : List Char)
    (hline : line = spaces k ++ (d :: W)) (hd : d.isDigit = true) :
    parse_line ⟨some .per_radio, rad, fts⟩ line
      = ⟨some .per_radio, perRadioRow rad line, fts⟩ := by
  obtain ⟨g1, g2, g3, g4, g5, g6⟩ := dataRow_guards line k d W hline hd
  simp only [parse_line, g1, g2, g3, g4, g5, g6, Bool.false_eq_true, if_false,
    Bool.false_and, Bool.false_or, Bool.or_self, ite_false]

/-- Helper: in the freq-totals section a digit-headed line goes to the row
parser. -/
theorem parse_line_freqData (rad : List (List Char × Radio)) (fts : List (ℚ × Int))
    (line : List Char) (k : Nat) (d : Char) (W : List Char)
    (hline : line = spaces k ++ (d :: W)) (hd : d.isDigit = true) :
    parse_line ⟨some .freq_totals, rad, fts⟩ line
      = ⟨some .freq_totals, rad, freqTotalsRow fts line⟩ := by
  obtain ⟨g1, g2, g3, g4, g5, g6⟩ := dataRow_guards line k d W hline hd
  simp only [parse_line, g1, g2, g3, g4, g5, g6, Bool.false_eq_true, if_false,
    Bool.false_and, Bool.false_or, Bool.or_self, ite_false]

/-- Helper: the freq-totals row in space-run normal form. -/
theorem freqRowLine_eq (cf : ℚ) (total : Nat) :
    freqRowLine cf total
      = spaces (5 - (natDec total).length) ++ (natDec total ++ (spaces 3 ++ fmt6 cf)) := by
  simp only [freqRowLine, padLeftC, List.append_assoc]

/-- Helper: a written frequency-total row parses back to exactly the stored
update keyed by the 6-decimal rounded frequency. -/
theorem freqTotalsRow_freqRow (fts : List (ℚ × Int)) (cf : ℚ) (total : Nat) (hcf : 0 ≤ cf) :
    freqTotalsRow fts (freqRowLine cf total) = setKey fts (round6 cf) (total : Int) := by
  have hsplit : splitWs (freqRowLine cf total) = [natDec total, fmt6 cf] := by
    rw [freqRowLine_eq, splitWs_spaces,
      splitWs_word_sep _ (natDec_ne_nil _)
        (fun c hc => isDigit_not_ws c (natDec_digits _ c hc)) 3 (by omega),
      splitWs_word_nil (fmt6 cf) (fmt6_ne_nil cf) (fmt6_no_ws cf)]
  simp only [freqTotalsRow, hsplit, pyParseInt_natDec, pyParseFloat_fmt6 cf hcf]

/-- Helper: the written per-radio row updates only the radio map. -/
theorem parse_line_radioRow (rad : List (List Char × Radio)) (fts : List (ℚ × Int))
    (r : RadioStats) (hfne : r.freqs ≠ []) (htne : r.type ≠ [])
    (htw : ∀ c ∈ r.type, c.isWhitespace = false) (hpos : ∀ p ∈ r.freqs, 0 ≤ p.1) :
    parse_line ⟨some .per_radio, rad, fts⟩ (radioRowLine r)
      = ⟨some .per_radio, setKey rad (intDec r.id) (parsedOfStats r), fts⟩ := by
  rcases hn : natDec r.count with _ | ⟨d, dt⟩
  · exact absurd hn (natDec_ne_nil _)
  have hd : d.isDigit = true := natDec_digits r.count d (by rw [hn]; exact List.mem_cons_self _ _)
  have hline : radioRowLine r
      = spaces (5 - (natDec r.count).length)
        ++ (d :: (dt
        ++ (spaces (3 + (5 - (natDec r.freqs.length).length))
        ++ (natDec r.freqs.length
        ++ (spaces (3 + (10 - (intDec r.id).length))
        ++ (intDec r.id
        ++ (spaces 1
        ++ (r.type
        ++ (spaces ((8 - r.type.length) + 2)
        ++ joinSep (chars (", "))
            ((sortFreqKeysAsc (r.freqs.map Prod.fst)).map fmt3)))))))))) := by
    conv_lhs => rw [radioRowLine_eq r]
    rw [hn, List.cons_append]
  rw [parse_line_perRadioData rad fts (radioRowLine r) _ d _ hline hd,
    perRadioRow_radioRow rad r hfne htne htw hpos]

/-- Helper: the written frequency-total row updates only the totals map. -/
theorem parse_line_freqRow (rad : List (List Char × Radio)) (fts : List (ℚ × Int))
    (cf : ℚ) (total : Nat) (hcf : 0 ≤ cf) :
    parse_line ⟨some .freq_totals, rad, fts⟩ (freqRowLine cf total)
      = ⟨some .freq_totals, rad, setKey fts (round6 cf) (total : Int)⟩ := by
  rcases hn : natDec total with _ | ⟨d, dt⟩
  · exact absurd hn (natDec_ne_nil _)
  have hd : d.isDigit = true := natDec_digits total d (by rw [hn]; exact List.mem_cons_self _ _)
  have hline : freqRowLine cf total
      = spaces (5 - (natDec total).length) ++ (d :: (dt ++ (spaces 3 ++ fmt6 cf))) := by
    conv_lhs => rw [freqRowLine_eq cf total]
    rw [hn, List.cons_append]
  rw [parse_line_freqData rad fts (freqRowLine cf total) _ d _ hline hd,
    freqTotalsRow_freqRow fts cf total hcf]

/-- Helper: folding the written per-radio rows stores each radio under its
printed id. -/
theorem foldl_radioRows (rs : List RadioStats) : (∀ r ∈ rs, WFStats r) →
    ∀ (rad : List (List Char × Radio)) (fts : List (ℚ × Int)),
      (rs.map radioRowLine).foldl parse_line ⟨some .per_radio, rad, fts⟩
        = ⟨some .per_radio,
           rs.foldl (fun m r => setKey m (intDec r.id) (parsedOfStats r)) rad, fts⟩ := by
  induction rs with
  | nil => intro _ rad fts; rfl
  | cons r rs ih =>
    intro h rad fts
    obtain ⟨h1, h2, h3, h4⟩ := h r (List.mem_cons_self _ _)
    simp only [List.map_cons, List.foldl_cons]
    rw [parse_line_radioRow rad fts r h1 h2 h3 h4]
    exact ih (fun x hx => h x (List.mem_cons_of_mem _ hx)) _ _

/-- Helper: folding the written frequency-total rows stores each total
under its 6-decimal rounded frequency. -/
theorem foldl_freqRows (cs : List (ℚ × Nat)) : (∀ p ∈ cs, 0 ≤ p.1) →
    ∀ (rad : List (List Char × Radio)) (fts : List (ℚ × Int)),
      ((cs.map (fun p => freqRowLine p.1 p.2)).foldl parse_line ⟨some .freq_totals, rad, fts⟩)
        = ⟨some .freq_totals, rad,
           cs.foldl (fun m p => setKey m (round6 p.1) (p.2 : Int)) fts⟩ := by
  induction cs with
  | nil => intro _ rad fts; rfl
  | cons p ps ih =>
    intro h rad fts
    simp only [List.map_cons, List.foldl_cons]
    rw [parse_line_freqRow rad fts p.1 p.2 (h p (List.mem_cons_self _ _))]
    exact ih (fun x hx => h x (List.mem_cons_of_mem _ hx)) _ _

/-- Helper: a written message-type row is ignored out of section. -/
theorem parse_line_typeRow (rad : List (List Char × Radio)) (fts : List (ℚ × Int))
    (t : List Char) (tot : Nat) (ht : t ≠ [])
    (hw : ∀ c ∈ t, c.isWhitespace = false) (hh : ¬ t.headD ' ' = '=') :
    parse_line ⟨none, rad, fts⟩ (typeRowLine t tot) = ⟨none, rad, fts⟩ := by
  apply parse_line_none_skip
  rcases t with _ | ⟨c, ct⟩
  · exact absurd rfl ht
  have hre : typeRowLine (c :: ct) tot
      = c :: (ct ++ (spaces (8 - (c :: ct).length)
          ++ (spaces 1 ++ (spaces (5 - (natDec tot).length) ++ natDec tot)))) := by
    simp [typeRowLine, padRightC, padLeftC, List.append_assoc]
  rw [hre, stripChars_cons_nonws c _ (hw c (List.mem_cons_self _ _))]
  simpa using hh

/-- Helper: folding the written message-type rows changes nothing. -/
theorem foldl_typeRows (ts : List (List Char × Nat)) :
    (∀ p ∈ ts, p.1 ≠ [] ∧ (∀ c ∈ p.1, c.isWhitespace = false) ∧ p.1.headD ' ' ≠ '=') →
    ∀ (rad : List (List Char × Radio)) (fts : List (ℚ × Int)),
      ((ts.map (fun p => typeRowLine p.1 p.2)).foldl parse_line ⟨none, rad, fts⟩)
        = ⟨none, rad, fts⟩ := by
  induction ts with
  | nil => intro _ rad fts; rfl
  | cons p ps ih =>
    intro h rad fts
    obtain ⟨h1, h2, h3⟩ := h p (List.mem_cons_self _ _)
    simp only [List.map_cons, List.foldl_cons]
    rw [parse_line_typeRow rad fts p.1 p.2 h1 h2 h3]
    exact ih (fun x hx => h x (List.mem_cons_of_mem _ hx)) _ _

/-- Helper: the suggested-command line is ignored out of section. -/
theorem parse_line_cmd (rad : List (List Char × Radio)) (fts : List (ℚ × Int)) (i : Int) :
    parse_line ⟨none, rad, fts⟩
        (chars ("    rtlamr -filterid=") ++ intDec i ++ chars (" -format=json"))
      = ⟨none, rad, fts⟩ := by
  apply parse_line_none_skip
  have hre : chars ("    rtlamr -filterid=") ++ intDec i ++ chars (" -format=json")
      = spaces 4 ++ ('r' :: (chars ("tlamr -filterid=")
          ++ (intDec i ++ chars (" -format=json")))) := rfl
  rw [hre, stripChars_spaces_append, stripChars_cons_nonws 'r' _ (by decide)]
  simp

/-- Helper: the full parse of a written report is the pair of folds storing
each sorted radio row and each sorted frequency-total row. -/
theorem fold_write_summary (radios : List RadioStats) (cts : List (ℚ × Nat))
    (tts : List (List Char × Nat)) (h : WFAgg radios cts tts) :
    (write_summary_lines radios cts tts).foldl parse_line initParse
      = ⟨none,
         (sortRadios radios).foldl (fun m r => setKey m (intDec r.id) (parsedOfStats r)) [],
         (sortCenters cts).foldl (fun m p => setKey m (round6 p.1) (p.2 : Int)) []⟩ := by
  obtain ⟨hrne, hWFr, hids, hcne, hcpos, hc6, htt⟩ := h
  have hmemr : ∀ r ∈ sortRadios radios, WFStats r := fun r hr =>
    hWFr r ((List.mergeSort_perm radios _).mem_iff.mp hr)
  have hmemc : ∀ p ∈ sortCenters cts, 0 ≤ p.1 := fun p hp =>
    hcpos p ((List.mergeSort_perm cts _).mem_iff.mp hp)
  have hmemt : ∀ p ∈ sortTypes tts,
      p.1 ≠ [] ∧ (∀ c ∈ p.1, c.isWhitespace = false) ∧ p.1.headD ' ' ≠ '=' := fun p hp =>
    htt p ((List.mergeSort_perm tts _).mem_iff.mp hp)
  have hsne : sortRadios radios ≠ [] := by
    intro hcon
    have hperm := List.mergeSort_perm radios (fun a b => decide (b.count ≤ a.count))
    rw [show sortRadios radios
        = radios.mergeSort (fun a b => decide (b.count ≤ a.count)) from rfl] at hcon
    rw [hcon] at hperm
    exact hrne hperm.symm.eq_nil
  rcases hh : (sortRadios radios).head? with _ | r0
  · exact absurd (List.head?_eq_none_iff.mp hh) hsne
  simp only [write_summary_lines, hh]
  simp only [List.foldl_append, List.foldl_cons, List.foldl_nil]
  rw [show initParse = (⟨none, [], []⟩ : ParseState) from rfl]
  rw [parse_line_mark1, parse_line_hdr1, parse_line_sep1,
    foldl_radioRows (sortRadios radios) hmemr [] [],
    parse_line_blank, parse_line_mark2, parse_line_hdr2, parse_line_sep2,
    foldl_freqRows (sortCenters cts) hmemc _ [],
    parse_line_blank, parse_line_mark3, parse_line_hdr3, parse_line_sep3,
    foldl_typeRows (sortTypes tts) hmemt _ _,
    parse_line_none_blank, parse_line_sugg, parse_line_none_blank, parse_line_cmd]

/-- Helper: in a fold of keyed stores with distinct keys, every stored
element is retrievable under its key. -/
theorem getVal_foldl_setKey_of_nodup {κ ν α : Type} [DecidableEq κ] (l : List α)
    (key : α → κ) (val : α → ν) (hnd : (l.map key).Nodup) (a : α) (ha : a ∈ l) :
    getVal (l.foldl (fun m x => setKey m (key x) (val x)) []) (key a) = some (val a) := by
  have hrw : l.foldl (fun m x => setKey m (key x) (val x)) []
      = ((l.map (fun x => (key x, val x))).foldl (fun m e => setKey m e.1 e.2) []) := by
    rw [List.foldl_map]
  rw [hrw, getVal_foldl_setKey]
  have hfind : ((l.map (fun x => (key x, val x))).reverse).find?
      (fun e => decide (e.1 = key a)) = some (key a, val a) := by
    apply find?_eq_some_of_unique
    · rw [List.mem_reverse]
      exact List.mem_map.mpr ⟨a, ha, rfl⟩
    · simp
    · intro x hx hpx
      rw [List.mem_reverse] at hx
      obtain ⟨a2, ha2, rfl⟩ := List.mem_map.mp hx
      have hkey : key a2 = key a := by simpa using hpx
      have ha2a : a2 = a := List.inj_on_of_nodup_map hnd ha2 ha hkey
      rw [ha2a]
  rw [hfind]
  rfl

/-- C6 (corrected): the claimed ReportWriter→ReportParser round-trip does
not hold for every aggregator state (the empty state makes parse_summary
raise, and display-precision collisions or whitespace in type tokens break
it); it does hold for well-formed states: parsing the written report
succeeds and stores, for every aggregated radio, under its printed id, a
record with the exact total message count, unique-frequency count, type
token and 3-decimal-rounded sorted center frequencies, and, for every
center frequency, its exact total under the 6-decimal-rounded frequency. -/
theorem C6_roundtrip_amended (radios : List RadioStats) (cts : List (ℚ × Nat))
    (tts : List (List Char × Nat)) (h : WFAgg radios cts tts) :
    ∃ R T, parse_summary (write_summary_lines radios cts tts) = .ok (R, T)
      ∧ (∀ r ∈ radios, getVal R (intDec r.id) = some (parsedOfStats r))
      ∧ (∀ p ∈ cts, getVal T (round6 p.1) = some ((p.2 : Int))) := by
  have hfold := fold_write_summary radios cts tts h
  obtain ⟨hrne, hWFr, hids, hcne, hcpos, hc6, htt⟩ := h
  have hpermr := List.mergeSort_perm radios (fun a b => decide (b.count ≤ a.count))
  have hpermc := List.mergeSort_perm cts (fun a b => decide (b.2 ≤ a.2))
  have hpr : ((sortRadios radios).map (fun r => intDec r.id)).Perm
      (radios.map (fun r => intDec r.id)) := by
    apply List.Perm.map
    exact hpermr
  have hpc : ((sortCenters cts).map (fun p => round6 p.1)).Perm
      (cts.map (fun p => round6 p.1)) := by
    apply List.Perm.map
    exact hpermc
  have hndr : ((sortRadios radios).map (fun r => intDec r.id)).Nodup := hpr.nodup_iff.mpr hids
  have hndc : ((sortCenters cts).map (fun p => round6 p.1)).Nodup := hpc.nodup_iff.mpr hc6
  have hRval : ∀ r ∈ radios,
      getVal ((sortRadios radios).foldl
        (fun m r => setKey m (intDec r.id) (parsedOfStats r)) []) (intDec r.id)
        = some (parsedOfStats r) := fun r hr =>
    getVal_foldl_setKey_of_nodup (sortRadios radios) (fun r => intDec r.id) parsedOfStats
      hndr r (hpermr.mem_iff.mpr hr)
  have hTval : ∀ p ∈ cts,
      getVal ((sortCenters cts).foldl
        (fun m p => setKey m (round6 p.1) (p.2 : Int)) []) (round6 p.1)
        = some ((p.2 : Int)) := fun p hp =>
    getVal_foldl_setKey_of_nodup (sortCenters cts) (fun p => round6 p.1) (fun p => (p.2 : Int))
      hndc p (hpermc.mem_iff.mpr hp)
  have hRne : (sortRadios radios).foldl
      (fun m r => setKey m (intDec r.id) (parsedOfStats r)) [] ≠ [] := by
    obtain ⟨r0, hr0⟩ := List.exists_mem_of_ne_nil radios hrne
    intro hcon
    have hv := hRval r0 hr0
    rw [hcon] at hv
    exact Option.noConfusion hv
  have hTne : (sortCenters cts).foldl
      (fun m p => setKey m (round6 p.1) (p.2 : Int)) [] ≠ [] := by
    obtain ⟨p0, hp0⟩ := List.exists_mem_of_ne_nil cts hcne
    intro hcon
    have hv := hTval p0 hp0
    rw [hcon] at hv
    exact Option.noConfusion hv
  refine ⟨_, _, ?_, hRval, hTval⟩
  simp only [parse_summary, hfold]
  rw [if_neg (by simpa using hRne), if_neg (by simpa using hTne)]

/-- C6 counterexample: for the empty aggregator state the round-trip fails
outright: the written report parses to the no-radios error, not to matching
totals. -/
theorem C6_counterexample :
    parse_summary (write_summary_lines [] [] []) = .error .noRadios := by
  simp only [write_summary_lines, sortRadios, sortCenters, sortTypes, List.mergeSort_nil]
  rfl

/-- C6 witness: a one-radio, one-frequency well-formed aggregator state on
which the amended round-trip applies. -/
theorem C6_roundtrip_amended_witness :
    WFAgg [⟨1571038152, chars ("R900"), 49, [((912.5 : ℚ), 3)]⟩] [((912.5 : ℚ), 49)]
        [(chars ("SCM"), 49)]
    ∧ ∃ R T, parse_summary (write_summary_lines
          [⟨1571038152, chars ("R900"), 49, [((912.5 : ℚ), 3)]⟩] [((912.5 : ℚ), 49)]
          [(chars ("SCM"), 49)]) = .ok (R, T)
        ∧ (∀ r ∈ [(⟨1571038152, chars ("R900"), 49, [((912.5 : ℚ), 3)]⟩ : RadioStats)],
            getVal R (intDec r.id) = some (parsedOfStats r))
        ∧ (∀ p ∈ ([((912.5 : ℚ), 49)] : List (ℚ × Nat)), getVal T (round6 p.1) = some ((p.2 : Int))) := by
  have hWF : WFAgg [⟨1571038152, chars ("R900"), 49, [((912.5 : ℚ), 3)]⟩]
      [((912.5 : ℚ), 49)] [(chars ("SCM"), 49)] := by
    refine ⟨by simp, ?_, by simp, by simp, ?_, by simp, ?_⟩
    · intro r hr
      rw [List.mem_singleton.mp hr]
      refine ⟨by simp, by decide, by decide, ?_⟩
      intro p hp
      rw [List.mem_singleton.mp hp]
      norm_num
    · intro p hp
      rw [List.mem_singleton.mp hp]
      norm_num
    · intro p hp
      rw [List.mem_singleton.mp hp]
      refine ⟨by decide, by decide, by decide⟩
  exact ⟨hWF, C6_roundtrip_amended _ _ _ hWF⟩
